import Mathlib

/-!
Verification of the AIMET quantization toolkit core against its specification.

The development shallowly embeds the parts of the code base the claims are
about:

* the winnowing binary-mask utilities
  (`aimet_common/winnow/winnow_utils.py`),
* the affine quantization math and the `MinMaxQuantizer` family
  (`aimet_torch/experimental/v2/quantization/quantizers/affine.py` and
  `aimet_torch/v2/quantization/affine/backends/__init__.py`),
* the batch-norm statistics re-estimation loop
  (`aimet_tensorflow/bn_reestimation.py`),
* the producer/output binding discipline of the connected graph
  (`aimet_torch/meta/connectedgraph.py`).

Python floats are modelled as rationals, tensors of shape `()`/`(1,)` as
scalars, in-place mutation as explicit state passing, and exceptions as
`Option`/`Except` results.
-/

namespace Aimet

/-! ## Winnowing mask utilities (winnow_utils.py)

A binary mask is a list of 0/1 channel flags; it is modelled as `List Bool`
(`true` = 1).  `popcount` is Python's `sum(mask)` on such a mask. -/

/-- `get_one_positions_in_binary_mask` from winnow_utils.py:
`[idx for (idx, channel) in enumerate(mask) if channel]`. -/
def get_one_positions_in_binary_mask (mask : List Bool) : List Nat :=
  mask.enum.filterMap fun ic => if ic.2 then some ic.1 else none

/-- `get_zero_positions_in_binary_mask` from winnow_utils.py:
`[idx for (idx, channel) in enumerate(mask) if not channel]`. -/
def get_zero_positions_in_binary_mask (mask : List Bool) : List Nat :=
  mask.enum.filterMap fun ic => if ic.2 then none else some ic.1

/-- Python's `sum(mask)` for a 0/1 mask: the number of ones. -/
def popcount : List Bool → Nat
  | [] => 0
  | b :: t => (if b then 1 else 0) + popcount t

/-- Recursive characterization of `get_one_positions_in_binary_mask`,
tracking the enumeration counter. -/
def onePosAux : List Bool → Nat → List Nat
  | [], _ => []
  | b :: t, i => if b then i :: onePosAux t (i + 1) else onePosAux t (i + 1)

/-- Recursive characterization of `get_zero_positions_in_binary_mask`. -/
def zeroPosAux : List Bool → Nat → List Nat
  | [], _ => []
  | b :: t, i => if b then zeroPosAux t (i + 1) else i :: zeroPosAux t (i + 1)

theorem enumFrom_filterMap_one (m : List Bool) :
    ∀ i, ((List.enumFrom i m).filterMap fun ic =>
      if ic.2 then some ic.1 else none) = onePosAux m i := by
  induction m with
  | nil => intro i; rfl
  | cons b t ih =>
      intro i
      simp only [List.enumFrom, List.filterMap_cons, onePosAux]
      cases b <;> simp [ih]

theorem enumFrom_filterMap_zero (m : List Bool) :
    ∀ i, ((List.enumFrom i m).filterMap fun ic =>
      if ic.2 then none else some ic.1) = zeroPosAux m i := by
  induction m with
  | nil => intro i; rfl
  | cons b t ih =>
      intro i
      simp only [List.enumFrom, List.filterMap_cons, zeroPosAux]
      cases b <;> simp [ih]

theorem get_one_positions_eq (m : List Bool) :
    get_one_positions_in_binary_mask m = onePosAux m 0 := by
  simpa [get_one_positions_in_binary_mask, List.enum] using
    enumFrom_filterMap_one m 0

theorem get_zero_positions_eq (m : List Bool) :
    get_zero_positions_in_binary_mask m = zeroPosAux m 0 := by
  simpa [get_zero_positions_in_binary_mask, List.enum] using
    enumFrom_filterMap_zero m 0

theorem getD_cons_zero (b : Bool) (t : List Bool) (d : Bool) :
    (b :: t).getD 0 d = b := rfl

theorem getD_cons_succ (b : Bool) (t : List Bool) (n : Nat) (d : Bool) :
    (b :: t).getD (n + 1) d = t.getD n d := rfl

theorem onePosAux_length (m : List Bool) :
    ∀ i, (onePosAux m i).length = popcount m := by
  induction m with
  | nil => intro i; rfl
  | cons b t ih =>
      intro i
      cases b
      · simp [onePosAux, popcount, ih]
      · simp [onePosAux, popcount, ih]
        omega

theorem onePosAux_mem_lt (m : List Bool) :
    ∀ i x, x ∈ onePosAux m i → x < i + m.length := by
  induction m with
  | nil => intro i x hx; simp [onePosAux] at hx
  | cons b t ih =>
      intro i x hx
      cases b with
      | false =>
          simp only [onePosAux] at hx
          have := ih (i + 1) x (by simpa using hx)
          simp only [List.length_cons]
          omega
      | true =>
          have hx' : x = i ∨ x ∈ onePosAux t (i + 1) := by
            simpa [onePosAux] using hx
          rcases hx' with rfl | hx'
          · simp only [List.length_cons]; omega
          · have := ih (i + 1) x hx'
            simp only [List.length_cons]
            omega

theorem zeroPosAux_mem_of_getD (m : List Bool) :
    ∀ i k, k < m.length → m.getD k true = false → (i + k) ∈ zeroPosAux m i := by
  induction m with
  | nil => intro i k hk; simp at hk
  | cons b t ih =>
      intro i k hk hval
      cases k with
      | zero =>
          rw [getD_cons_zero] at hval
          subst hval
          show i + 0 ∈ i :: zeroPosAux t (i + 1)
          simp
      | succ n =>
          have hn : n < t.length := by simpa using hk
          have hv : t.getD n true = false := by
            rwa [getD_cons_succ] at hval
          have hmem := ih (i + 1) n hn hv
          have heq : i + (n + 1) = i + 1 + n := by omega
          cases b with
          | true =>
              show i + (n + 1) ∈ zeroPosAux t (i + 1)
              rw [heq]; exact hmem
          | false =>
              show i + (n + 1) ∈ i :: zeroPosAux t (i + 1)
              exact List.mem_cons.mpr (Or.inr (heq ▸ hmem))

/-- Generic helper: `getD` of an in-range index is a member. -/
theorem getD_mem_of_lt (l : List Nat) (k : Nat) (hk : k < l.length) :
    l.getD k 0 ∈ l := by
  induction l generalizing k with
  | nil => simp at hk
  | cons a t ih =>
      cases k with
      | zero => simp [List.getD]
      | succ n =>
          have hn : n < t.length := by simpa using hk
          simp only [List.getD] at *
          right
          exact ih n hn

/-- `List.set` at an in-range index, read back at the same index. -/
theorem getD_set_self (l : List Bool) (i : Nat) (b : Bool) (h : i < l.length) :
    (l.set i b).getD i true = b := by
  induction l generalizing i with
  | nil => simp at h
  | cons a t ih =>
      cases i with
      | zero => rfl
      | succ n => exact ih n (by simpa using h)

/-- `List.set` does not disturb other indices. -/
theorem getD_set_other (l : List Bool) (i j : Nat) (b d : Bool) (h : i ≠ j) :
    (l.set i b).getD j d = l.getD j d := by
  induction l generalizing i j with
  | nil => rfl
  | cons a t ih =>
      cases i with
      | zero => cases j with
          | zero => exact absurd rfl h
          | succ m => rfl
      | succ n => cases j with
          | zero => rfl
          | succ m => exact ih n m (by omega)

/-- `update_winnowed_channels` from winnow_utils.py.  The Python function
asserts `len(new_mask) == sum(original_mask)` and then zeroes, in place,
`original_mask[one_positions[idx]]` for each `idx` at which `new_mask` is
zero.  The assertion failure is modelled as `none`. -/
def update_winnowed_channels (original_mask new_mask : List Bool) :
    Option (List Bool) :=
  if new_mask.length = popcount original_mask then
    some ((get_zero_positions_in_binary_mask new_mask).foldl
      (fun acc idx =>
        acc.set ((get_one_positions_in_binary_mask original_mask).getD idx 0)
          false)
      original_mask)
  else
    none

theorem foldl_set_preserves_length (idxs : List Nat) (g : Nat → Nat) :
    ∀ init : List Bool,
      (idxs.foldl (fun acc idx => acc.set (g idx) false) init).length
        = init.length := by
  induction idxs with
  | nil => intro init; rfl
  | cons a t ih =>
      intro init
      simp only [List.foldl_cons]
      rw [ih]
      simp

theorem foldl_set_keeps_false (idxs : List Nat) (g : Nat → Nat) :
    ∀ (acc : List Bool) (p : Nat), acc.getD p true = false →
      (idxs.foldl (fun a idx => a.set (g idx) false) acc).getD p true
        = false := by
  induction idxs with
  | nil => intro acc p h; exact h
  | cons a t ih =>
      intro acc p h
      simp only [List.foldl_cons]
      apply ih
      by_cases hgp : g a = p
      · subst hgp
        by_cases hlt : g a < acc.length
        · exact getD_set_self acc (g a) false hlt
        · rw [List.set_eq_of_length_le (by omega)]
          exact h
      · rw [getD_set_other acc (g a) p false true hgp]
        exact h

theorem foldl_set_false_of_mem (idxs : List Nat) (g : Nat → Nat)
    (init : List Bool) (p : Nat) (hp : p < init.length)
    (hmem : ∃ i ∈ idxs, g i = p) :
    (idxs.foldl (fun acc idx => acc.set (g idx) false) init).getD p true
      = false := by
  induction idxs generalizing init with
  | nil => rcases hmem with ⟨i, hi, _⟩; simp at hi
  | cons a t ih =>
      rcases hmem with ⟨i, hi, hgi⟩
      rcases List.mem_cons.mp hi with rfl | hit
      · subst hgi
        simp only [List.foldl_cons]
        apply foldl_set_keeps_false
        exact getD_set_self init (g i) false hp
      · simp only [List.foldl_cons]
        exact ih (init.set (g a) false) (by simpa using hp) ⟨i, hit, hgi⟩

/-- Pairwise core of `get_indices_among_ones_of_overlapping_ones`,
tracking `more_ones_mask_ones_index` (the counter of ones seen so far in
`more_ones_mask`). -/
def overlapAux : List Bool → List Bool → Nat → List Nat
  | mh :: mt, lh :: lt, c =>
      (if mh && lh then [c] else [])
        ++ overlapAux mt lt (if mh then c + 1 else c)
  | _, _, _ => []

/-- `get_indices_among_ones_of_overlapping_ones` from winnow_utils.py.
The Python loop iterates `enumerate(more_ones_mask)` and reads
`less_ones_mask[index]`, appending the running count of ones of
`more_ones_mask` whenever both masks hold a one; the masks are traversed
pairwise (they have equal length wherever the function is defined). -/
def get_indices_among_ones_of_overlapping_ones
    (more_ones_mask less_ones_mask : List Bool) : List Nat :=
  overlapAux more_ones_mask less_ones_mask 0

/-- The documented precondition of
`get_indices_among_ones_of_overlapping_ones`: the masks have equal length
and wherever `small` has a one, `big` has a one at the same position. -/
def maskSubsetB : List Bool → List Bool → Bool
  | [], [] => true
  | s :: st, b :: bt => (!s || b) && maskSubsetB st bt
  | _, _ => false

theorem popcount_cons_true (t : List Bool) :
    popcount (true :: t) = 1 + popcount t := rfl

theorem popcount_cons_false (t : List Bool) :
    popcount (false :: t) = popcount t := by
  simp [popcount]

theorem overlapAux_spec :
    ∀ (more less : List Bool) (c : Nat), maskSubsetB less more = true →
      (overlapAux more less c).length = popcount less ∧
      ∀ x ∈ overlapAux more less c, x < c + popcount more := by
  intro more
  induction more with
  | nil =>
      intro less c h
      cases less with
      | nil => exact ⟨rfl, by intro x hx; simp [overlapAux] at hx⟩
      | cons lh lt => simp [maskSubsetB] at h
  | cons mh mt ih =>
      intro less c h
      cases less with
      | nil => simp [maskSubsetB] at h
      | cons lh lt =>
          have h' : (!lh || mh) = true ∧ maskSubsetB lt mt = true := by
            simpa [maskSubsetB, Bool.and_eq_true] using h
          rcases h' with ⟨hsb, hrec⟩
          cases lh with
          | true =>
              have hm : mh = true := by
                cases mh with
                | true => rfl
                | false => simp at hsb
              subst hm
              have hind := ih lt (c + 1) hrec
              constructor
              · rw [popcount_cons_true]
                simp [overlapAux, hind.1]
                omega
              · intro x hx
                have hx' : x = c ∨ x ∈ overlapAux mt lt (c + 1) := by
                  simpa [overlapAux] using hx
                rw [popcount_cons_true]
                rcases hx' with rfl | hx'
                · omega
                · have := hind.2 x hx'
                  omega
          | false =>
              cases mh with
              | true =>
                  have hind := ih lt (c + 1) hrec
                  constructor
                  · rw [popcount_cons_false]
                    simpa [overlapAux] using hind.1
                  · intro x hx
                    have hx' : x ∈ overlapAux mt lt (c + 1) := by
                      simpa [overlapAux] using hx
                    have := hind.2 x hx'
                    rw [popcount_cons_true]
                    omega
              | false =>
                  have hind := ih lt c hrec
                  constructor
                  · rw [popcount_cons_false]
                    simpa [overlapAux] using hind.1
                  · intro x hx
                    have hx' : x ∈ overlapAux mt lt c := by
                      simpa [overlapAux] using hx
                    have := hind.2 x hx'
                    rw [popcount_cons_false]
                    omega

/-- **C5.** For every pair of binary masks `big`, `small` of equal length
such that every one-position of `small` is also a one-position of `big`
(the documented precondition, encoded by `maskSubsetB`),
`get_indices_among_ones_of_overlapping_ones big small` has length
`popcount small` and every returned index is strictly below
`popcount big`. -/
theorem get_indices_among_ones_of_overlapping_ones_spec
    (big small : List Bool) (h : maskSubsetB small big = true) :
    (get_indices_among_ones_of_overlapping_ones big small).length
        = popcount small ∧
    ∀ x ∈ get_indices_among_ones_of_overlapping_ones big small,
      x < popcount big := by
  have := overlapAux_spec big small 0 h
  exact ⟨this.1, fun x hx => by simpa using this.2 x hx⟩

/-- Witness for C5, on the worked example from the source comments:
`more = 1,0,0,1,1,0,1,0,1,1`, `less = 1,0,0,0,1,0,0,0,1,0`. -/
theorem get_indices_among_ones_of_overlapping_ones_spec_witness :
    maskSubsetB [true, false, false, false, true, false, false, false, true,
        false]
      [true, false, false, true, true, false, true, false, true, true]
        = true ∧
    (get_indices_among_ones_of_overlapping_ones
      [true, false, false, true, true, false, true, false, true, true]
      [true, false, false, false, true, false, false, false, true, false]
      ).length = 3 ∧
    ∀ x ∈ get_indices_among_ones_of_overlapping_ones
      [true, false, false, true, true, false, true, false, true, true]
      [true, false, false, false, true, false, false, false, true, false],
      x < 6 := by
  refine ⟨by decide, ?_, ?_⟩
  · have := get_indices_among_ones_of_overlapping_ones_spec
      [true, false, false, true, true, false, true, false, true, true]
      [true, false, false, false, true, false, false, false, true, false]
      (by decide)
    simpa using this.1
  · have := get_indices_among_ones_of_overlapping_ones_spec
      [true, false, false, true, true, false, true, false, true, true]
      [true, false, false, false, true, false, false, false, true, false]
      (by decide)
    intro x hx
    simpa using this.2 x hx

/-- **C4.** `update_winnowed_channels` (i) rejects (via its assertion,
modelled as `none`) any call where `len(new_mask) ≠ sum(original_mask)`;
(ii) under that precondition it zeroes the position in `original_mask` of
the `k`-th one, for every index `k` at which `new_mask` is zero; and
(iii) on the worked example from the source comments,
`original = 1,1,0,1,0,0,1,1,1,0,0,1` with `new = 1,1,0,0,1,0,1` yields
`1,1,0,0,0,0,0,1,0,0,0,1`. -/
theorem update_winnowed_channels_spec :
    (∀ (o n : List Bool), n.length ≠ popcount o →
      update_winnowed_channels o n = none) ∧
    (∀ (o n r : List Bool), update_winnowed_channels o n = some r →
      ∀ k, k < n.length → n.getD k true = false →
        r.getD ((get_one_positions_in_binary_mask o).getD k 0) true
          = false) ∧
    update_winnowed_channels
      [true, true, false, true, false, false, true, true, true, false, false,
        true]
      [true, true, false, false, true, false, true]
      = some [true, true, false, false, false, false, false, true, false,
        false, false, true] := by
  refine ⟨?_, ?_, by decide⟩
  · intro o n hne
    simp [update_winnowed_channels, hne]
  · intro o n r hr k hk hval
    rw [update_winnowed_channels] at hr
    by_cases hlen : n.length = popcount o
    · rw [if_pos hlen] at hr
      have hr' : (get_zero_positions_in_binary_mask n).foldl
          (fun acc idx =>
            acc.set ((get_one_positions_in_binary_mask o).getD idx 0) false) o
            = r := Option.some.inj hr
      subst hr'
      have hp_lt : (get_one_positions_in_binary_mask o).getD k 0 < o.length := by
        rw [get_one_positions_eq]
        have hkones : k < (onePosAux o 0).length := by
          rw [onePosAux_length]
          omega
        have hp_mem := getD_mem_of_lt (onePosAux o 0) k hkones
        have := onePosAux_mem_lt o 0 _ hp_mem
        omega
      have hkzero : k ∈ get_zero_positions_in_binary_mask n := by
        rw [get_zero_positions_eq]
        simpa using zeroPosAux_mem_of_getD n 0 k hk hval
      exact foldl_set_false_of_mem _ _ o _ hp_lt ⟨k, hkzero, rfl⟩
    · rw [if_neg hlen] at hr
      cases hr

/-- Witness for C4: the worked example, read back at the position of the
2nd one of the original mask (`new_mask[2] = 0`), via the main theorem. -/
theorem update_winnowed_channels_spec_witness :
    ([true, true, false, false, false, false, false, true, false, false,
        false, true] : List Bool).getD
      ((get_one_positions_in_binary_mask
        [true, true, false, true, false, false, true, true, true, false,
          false, true]).getD 2 0) true = false :=
  update_winnowed_channels_spec.2.1
    [true, true, false, true, false, false, true, true, true, false, false,
      true]
    [true, true, false, false, true, false, true]
    [true, true, false, false, false, false, false, true, false, false, false,
      true]
    (by decide) 2 (by decide) (by decide)

/-! ## Affine quantization math

(affine/backends/__init__.py and
experimental/v2/quantization/quantizers/affine.py)

Scales, offsets and tensor elements are Python floats, modelled as `ℚ`;
a quantizer of scalar shape is modelled, so tensors of quantization
parameters are single rationals. -/

/-- Round-to-nearest with ties to even: the rounding of `torch.round`, used
by the backend quantize kernel and by `ste_round`'s forward pass. -/
def bankersRound (x : ℚ) : ℤ :=
  if x - ⌊x⌋ < 1 / 2 then ⌊x⌋
  else if 1 / 2 < x - ⌊x⌋ then ⌊x⌋ + 1
  else if ⌊x⌋ % 2 = 0 then ⌊x⌋ else ⌊x⌋ + 1

/-- `torch.clamp(v, min=lo, max=hi)`. -/
def pyClamp (v lo hi : ℚ) : ℚ := min (max v lo) hi

/-- The `bitwidth`/`signed` elaboration path of `_parse_args` in
affine/backends/__init__.py: `num_bins = 2 ** bitwidth - 1`; if signed,
`qmin = -math.ceil(num_bins/2)` and `qmax = math.floor(num_bins/2)`,
otherwise `qmin = 0` and `qmax = num_bins`. -/
def parse_args (bitwidth : Nat) (signed : Bool) : Int × Int :=
  let num_bins : Int := 2 ^ bitwidth - 1
  if signed then
    (-(Int.ceil ((num_bins : ℚ) / 2)), Int.floor ((num_bins : ℚ) / 2))
  else
    (0, num_bins)

/-- Modelled from the spec: the backend quantize kernel
(`get_backend().quantize`, implemented by the torch backend outside the
sources) computes `clamp(round(tensor / scale) - offset, qmin, qmax)`
elementwise, exactly as stated by the docstring of `quantize` in
affine/backends/__init__.py and by §4.3 of the spec; rounding is
`torch.round` (half-to-even). -/
def backend_quantize (tensor scale offset : ℚ) (qmin qmax : Int) : ℚ :=
  pyClamp ((bankersRound (tensor / scale) : ℚ) - offset) (qmin : ℚ) (qmax : ℚ)

/-- Modelled from the spec: the backend quantize-dequantize kernel computes
`(x_int + offset) * scale` with `x_int` the quantize output, as stated by
the docstring of `quantize_dequantize` in affine/backends/__init__.py. -/
def backend_quantize_dequantize (tensor scale offset : ℚ)
    (qmin qmax : Int) : ℚ :=
  (backend_quantize tensor scale offset qmin qmax + offset) * scale

/-- `quantize` from affine/backends/__init__.py, bitwidth signature:
`qmin, qmax, _ = _parse_args(args, kwargs)` followed by
`get_backend().quantize(tensor, scale, offset, qmin, qmax)`. -/
def quantize (tensor scale offset : ℚ) (bitwidth : Nat) (signed : Bool) : ℚ :=
  backend_quantize tensor scale offset (parse_args bitwidth signed).1
    (parse_args bitwidth signed).2

/-- `quantize_dequantize` from affine/backends/__init__.py, bitwidth
signature. -/
def quantize_dequantize (tensor scale offset : ℚ) (bitwidth : Nat)
    (signed : Bool) : ℚ :=
  backend_quantize_dequantize tensor scale offset
    (parse_args bitwidth signed).1 (parse_args bitwidth signed).2

/-- The quantization range exactly as worded by the claim/spec:
unsigned → `[0, 2^bw − 1]`; signed → `[−ceil((2^bw−1)/2), floor((2^bw−1)/2)]`. -/
def claimQmin (bitwidth : Nat) (signed : Bool) : Int :=
  if signed then -(Int.ceil ((2 ^ bitwidth - 1 : ℚ) / 2)) else 0

/-- Companion of `claimQmin`, following the claim's wording. -/
def claimQmax (bitwidth : Nat) (signed : Bool) : Int :=
  if signed then Int.floor ((2 ^ bitwidth - 1 : ℚ) / 2) else 2 ^ bitwidth - 1

/-- The affine quantize operation exactly as worded by the claim:
`clamp(round(x/s) - o, qmin, qmax)` with the range of
`claimQmin`/`claimQmax`. -/
def claim_quantize (x s o : ℚ) (bitwidth : Nat) (signed : Bool) : ℚ :=
  pyClamp ((bankersRound (x / s) : ℚ) - o) (claimQmin bitwidth signed : ℚ)
    (claimQmax bitwidth signed : ℚ)

/-- **C1.** For every input element `x`, scale `s`, offset `o`, bitwidth and
signedness flag, the affine `quantize` operation returns
`clamp(round(x/s) - o, qmin, qmax)` with `qmin`/`qmax` derived as
`[0, 2^bw − 1]` when unsigned and `[−ceil((2^bw−1)/2), floor((2^bw−1)/2)]`
when signed. -/
theorem quantize_is_clamp_round_spec :
    ∀ (x s o : ℚ) (bitwidth : Nat) (signed : Bool),
      quantize x s o bitwidth signed = claim_quantize x s o bitwidth signed := by
  intro x s o bitwidth signed
  unfold quantize claim_quantize backend_quantize claimQmin claimQmax
    parse_args
  cases signed <;> simp

/-! ## MinMaxQuantizer (experimental/v2 affine.py) -/

/-- State of a `MinMaxQuantizer` of scalar shape: the trainable `min`/`max`
parameters, the bitwidth and the symmetry/signedness flags.
Modelled from the spec: the `initialized` flag stands for
`QuantizerBase.is_initialized()` (quantizers/base.py is not among the
sources); it is `False` until the quantization parameters have been
committed, e.g. by `set_range`. -/
structure MinMaxQuantizer where
  bitwidth : Nat
  symmetric : Bool
  signed : Bool
  min : ℚ
  max : ℚ
  initialized : Bool
deriving DecidableEq, Repr

/-- `AffineQuantizerBase.__init__` / `MinMaxQuantizer.__init__`:
`self._symmetric = symmetric` and `self._signed = symmetric` (the two
supported modes are unsigned-asymmetric and signed-symmetric); the
`min`/`max` parameters are registered as `-ones(shape)` / `ones(shape)` and
are not yet initialized. -/
def mkMinMaxQuantizer (bitwidth : Nat) (symmetric : Bool) : MinMaxQuantizer :=
  { bitwidth := bitwidth, symmetric := symmetric, signed := symmetric,
    min := -1, max := 1, initialized := false }

/-- `MinMaxQuantizer.set_range`: `self.min.copy_(min); self.max.copy_(max)`
under `torch.no_grad()` — the given range is stored with no validation. -/
def set_range (q : MinMaxQuantizer) (min max : ℚ) : MinMaxQuantizer :=
  { q with min := min, max := max, initialized := true }

/-- Body of `MinMaxQuantizer.get_scale`:
`num_bins = 2 ** bitwidth - 1; scale = (max - min) / num_bins`. -/
def scaleVal (q : MinMaxQuantizer) : ℚ :=
  (q.max - q.min) / (2 ^ q.bitwidth - 1)

/-- `MinMaxQuantizer.get_scale`: `None` when not initialized. -/
def get_scale (q : MinMaxQuantizer) : Option ℚ :=
  if q.initialized then some (scaleVal q) else none

/-- Body of `MinMaxQuantizer.get_offset`: zeros when `self.symmetric`,
otherwise `ste_round(self.min / self.get_scale())`, incremented by
`2 ** (bitwidth - 1)` when `self._signed`. -/
def offsetVal (q : MinMaxQuantizer) : ℚ :=
  if q.symmetric then 0
  else (bankersRound (q.min / scaleVal q) : ℚ)
    + (if q.signed then 2 ^ (q.bitwidth - 1) else 0)

/-- `MinMaxQuantizer.get_offset`: `None` when not initialized. -/
def get_offset (q : MinMaxQuantizer) : Option ℚ :=
  if q.initialized then some (offsetVal q) else none

/-- Body of `MinMaxQuantizer.get_min`:
`scale * (offset - num_negative_steps)`. -/
def getMinVal (q : MinMaxQuantizer) : ℚ :=
  scaleVal q * (offsetVal q - (if q.signed then 2 ^ (q.bitwidth - 1) else 0))

/-- Body of `MinMaxQuantizer.get_max`:
`scale * (offset + num_positive_steps)`. -/
def getMaxVal (q : MinMaxQuantizer) : ℚ :=
  scaleVal q
    * (offsetVal q
        + (if q.signed then 2 ^ (q.bitwidth - 1) - 1 else 2 ^ q.bitwidth - 1))

/-- Python `int(x)`: truncation toward zero. -/
def pyInt (x : ℚ) : Int := if 0 ≤ x then ⌊x⌋ else ⌈x⌉

/-- One record of the legacy encoding format produced by
`AffineQuantizerBase.get_legacy_encodings`. -/
structure LegacyEncoding where
  min : ℚ
  max : ℚ
  scale : ℚ
  offset : Int
  bitwidth : Nat
  dtype : String
  is_symmetric : String
deriving DecidableEq, Repr

/-- `AffineQuantizerBase.get_legacy_encodings`: `None` when the quantizer is
not initialized; otherwise one record per (flattened) parameter element —
one record for this scalar-shape model — with the offset legacy-shifted by
`-2 ** (bitwidth - 1)` when signed. -/
def get_legacy_encodings (q : MinMaxQuantizer) : Option (List LegacyEncoding) :=
  if ¬ q.initialized then none
  else
    some [{ min := getMinVal q, max := getMaxVal q, scale := scaleVal q,
            offset := pyInt (offsetVal q
              - (if q.signed then 2 ^ (q.bitwidth - 1) else 0)),
            bitwidth := q.bitwidth, dtype := "int",
            is_symmetric := if q.symmetric then "True" else "False" }]

/-- The error message raised by `Quantize.forward` on an uninitialized
quantizer. -/
def quantizeNotInitializedMsg : String :=
  "Failed to run Quantize since quantization parameters are not initialized. Please initialize the quantization parameters using `compute_encodings()`."

/-- The error message raised by `QuantizeDequantize.forward` on an
uninitialized quantizer. -/
def qdqNotInitializedMsg : String :=
  "Failed to run QuantizeDequantize since quantization parameters are not initialized. Please initialize the quantization parameters using `compute_encodings()`."

/-- `Quantize.forward`: raises `RuntimeError` when not initialized,
otherwise quantizes the input with the quantizer's encoding. -/
def Quantize.forward (q : MinMaxQuantizer) (input : ℚ) : Except String ℚ :=
  if ¬ q.initialized then
    .error quantizeNotInitializedMsg
  else
    .ok (quantize input (scaleVal q) (offsetVal q) q.bitwidth q.signed)

/-- `QuantizeDequantize.forward`: raises `RuntimeError` when not
initialized, otherwise quantize-dequantizes the input. -/
def QuantizeDequantize.forward (q : MinMaxQuantizer) (input : ℚ) :
    Except String ℚ :=
  if ¬ q.initialized then
    .error qdqNotInitializedMsg
  else
    .ok (quantize_dequantize input (scaleVal q) (offsetVal q) q.bitwidth
      q.signed)

/-- **C2.** For every calibrated `MinMaxQuantizer` with `symmetric = False`
(hence unsigned), `get_scale()` is `(max - min)/(2^bitwidth - 1)` and
`get_offset()` is `round(min/scale)`; in particular with `bitwidth = 8` and
committed range `min = -2.0`, `max = 6.0`, the scale is `8/255` and the
offset is `round(-2.0/scale) = -64`. -/
theorem min_max_quantizer_asymmetric_scale_offset :
    (∀ (bitwidth : Nat) (m M : ℚ),
      get_scale (set_range (mkMinMaxQuantizer bitwidth false) m M)
          = some ((M - m) / (2 ^ bitwidth - 1)) ∧
      get_offset (set_range (mkMinMaxQuantizer bitwidth false) m M)
          = some (bankersRound (m / ((M - m) / (2 ^ bitwidth - 1))))) ∧
    get_scale (set_range (mkMinMaxQuantizer 8 false) (-2) 6)
        = some (8 / 255) ∧
    get_offset (set_range (mkMinMaxQuantizer 8 false) (-2) 6)
        = some (bankersRound ((-2 : ℚ) / (8 / 255))) ∧
    get_offset (set_range (mkMinMaxQuantizer 8 false) (-2) 6)
        = some (-64) := by
  refine ⟨fun bitwidth m M => ⟨rfl, ?_⟩, ?_, ?_, ?_⟩
  · simp [get_offset, offsetVal, set_range, mkMinMaxQuantizer, scaleVal]
  · show some (scaleVal _) = _
    simp [scaleVal, set_range, mkMinMaxQuantizer]
    norm_num
  · simp [get_offset, offsetVal, set_range, mkMinMaxQuantizer, scaleVal]
    norm_num
  · simp [get_offset, offsetVal, set_range, mkMinMaxQuantizer, scaleVal]
    norm_num [bankersRound]

/-- **C3.** For every quantizer with `symmetric = True`, whatever its
`min`/`max` parameters, `get_offset()` returns exactly zero whenever the
quantizer is initialized. -/
theorem symmetric_offset_is_zero (q : MinMaxQuantizer)
    (hsym : q.symmetric = true) (hinit : q.initialized = true) :
    get_offset q = some 0 := by
  simp [get_offset, offsetVal, hsym, hinit]

/-- Witness for C3 at a concrete symmetric quantizer with a committed,
asymmetric-looking range. -/
theorem symmetric_offset_is_zero_witness :
    get_offset (set_range (mkMinMaxQuantizer 8 true) (-5) 7) = some 0 :=
  symmetric_offset_is_zero (set_range (mkMinMaxQuantizer 8 true) (-5) 7)
    rfl rfl

/-- **C6.** Running `Quantize.forward` or `QuantizeDequantize.forward`
before calibration (quantizer not initialized) raises the explicit
"not initialized" `RuntimeError` and does not pass the input through. -/
theorem forward_uninitialized_raises (q : MinMaxQuantizer) (x : ℚ)
    (h : q.initialized = false) :
    Quantize.forward q x = .error quantizeNotInitializedMsg ∧
    QuantizeDequantize.forward q x = .error qdqNotInitializedMsg ∧
    Quantize.forward q x ≠ .ok x ∧
    QuantizeDequantize.forward q x ≠ .ok x := by
  refine ⟨?_, ?_, ?_, ?_⟩ <;> simp [Quantize.forward, QuantizeDequantize.forward, h]

/-- Witness for C6: a freshly constructed (uncalibrated) quantizer. -/
theorem forward_uninitialized_raises_witness :
    Quantize.forward (mkMinMaxQuantizer 8 false) 1
        = .error quantizeNotInitializedMsg ∧
    QuantizeDequantize.forward (mkMinMaxQuantizer 8 false) 1
        = .error qdqNotInitializedMsg ∧
    Quantize.forward (mkMinMaxQuantizer 8 false) 1 ≠ .ok 1 ∧
    QuantizeDequantize.forward (mkMinMaxQuantizer 8 false) 1 ≠ .ok 1 :=
  forward_uninitialized_raises (mkMinMaxQuantizer 8 false) 1 rfl

/-- **C7 (counterexample).** `set_range` accepts an invalid range with
`min = 5 ≥ max = 3` without any error, and the stored range parameters are
changed — contradicting the claim that invalid ranges fail validation and
leave the stored parameters unchanged. -/
theorem set_range_no_validation_counterexample :
    (set_range (mkMinMaxQuantizer 8 false) 5 3).min = 5 ∧
    (set_range (mkMinMaxQuantizer 8 false) 5 3).max = 3 ∧
    ¬ ((set_range (mkMinMaxQuantizer 8 false) 5 3).min
          = (mkMinMaxQuantizer 8 false).min ∧
       (set_range (mkMinMaxQuantizer 8 false) 5 3).max
          = (mkMinMaxQuantizer 8 false).max) := by
  refine ⟨rfl, rfl, ?_⟩
  intro h
  have : (5 : ℚ) = -1 := h.1
  norm_num at this

/-- **C7 (amended).** `set_range` performs no validation: it always stores
the given `min`/`max` (marking the quantizer initialized), even when
`min ≥ max`. -/
theorem set_range_stores_unconditionally (q : MinMaxQuantizer) (m M : ℚ) :
    (set_range q m M).min = m ∧ (set_range q m M).max = M ∧
    (set_range q m M).initialized = true :=
  ⟨rfl, rfl, rfl⟩

/-- **C10.** For every uninitialized quantizer, `get_legacy_encodings()`
returns `None` — not an error and not an empty list. -/
theorem get_legacy_encodings_uninitialized_none (q : MinMaxQuantizer)
    (h : q.initialized = false) :
    get_legacy_encodings q = none ∧ get_legacy_encodings q ≠ some [] := by
  simp [get_legacy_encodings, h]

/-- Witness for C10: a freshly constructed (uncalibrated) quantizer. -/
theorem get_legacy_encodings_uninitialized_none_witness :
    get_legacy_encodings (mkMinMaxQuantizer 8 false) = none ∧
    get_legacy_encodings (mkMinMaxQuantizer 8 false) ≠ some [] :=
  get_legacy_encodings_uninitialized_none (mkMinMaxQuantizer 8 false) rfl

/-! ## Batch-norm statistics re-estimation (bn_reestimation.py) -/

/-- The accumulation loop of `reestimate_bn_stats`: for
`batch_index in range(bn_num_batches)`, pull the next batch, run the model
and add the observed per-variable statistic to `sum_dict`; when the data
iterator is exhausted (`tf.errors.OutOfRangeError`) the loop breaks.  A
single batch-norm variable is modelled; `stream` lists the values the
session would observe per successful batch. -/
def bnLoop : Nat → List ℚ → ℚ → ℚ
  | 0, _, acc => acc
  | _ + 1, [], acc => acc
  | n + 1, x :: rest, acc => bnLoop n rest (acc + x)

/-- `reestimate_bn_stats`, step (3): after the loop,
`sum_dict[k] = sum_dict[k] / bn_num_batches` — the accumulated sum is
divided by the *requested* number of batches. -/
def reestimate_bn_stats (bn_num_batches : Nat) (stream : List ℚ) : ℚ :=
  bnLoop bn_num_batches stream 0 / bn_num_batches

/-- The loop terminates gracefully and computes the sum of the first
`min(bn_num_batches, |stream|)` batch statistics. -/
theorem bnLoop_eq_take_sum :
    ∀ (n : Nat) (stream : List ℚ) (acc : ℚ),
      bnLoop n stream acc = acc + (stream.take n).sum := by
  intro n
  induction n with
  | zero => intro stream acc; simp [bnLoop]
  | succ m ih =>
      intro stream acc
      cases stream with
      | nil => simp [bnLoop]
      | cons x rest =>
          simp [bnLoop, ih rest (acc + x)]
          ring

/-- **C9 (code evaluated at the failing input).** With `bn_num_batches = 2`
and a data iterator exhausted after a single batch of observed value `4`,
the loop terminates gracefully but the committed statistic is
`4/2 = 2`, not the average `4` over the one batch actually seen. -/
theorem reestimate_bn_stats_divides_by_requested :
    reestimate_bn_stats 2 [4] = 2 ∧
    reestimate_bn_stats 2 [4] ≠ ([(4 : ℚ)].sum / ([(4 : ℚ)].length : ℚ)) := by
  constructor
  · norm_num [reestimate_bn_stats, bnLoop]
  · norm_num [reestimate_bn_stats, bnLoop]

/-! ## Connected graph producer/output bindings (meta/connectedgraph.py)

The model tracks, for each Op, its `name`, `dotted_name` and `output`
Product binding, and for each Product its `name`, `producer` and
`consumers` — the fields the producer/output invariant (C8) is about
(input-slot lists and shapes play no role in it and are not tracked).
Op and Product names are Python strings built by concatenation; they are
modelled as structured values together with their rendering to character
lists, on which the string searches of
`_determine_split_behavior_for_op_and_insert_split_op_in_connected_graph`
(Python's `prod_name.find('to')`, slicing, and the `name in prod`
substring test) operate.  The `Op` and `Product` entity classes themselves
live in `aimet_common` outside the sources; their fields and
`add_consumer` are modelled from the spec's §3 data model (producer: at
most one Op; consumers: ordered list, appended to). -/

/-- An op name: either the final Python name of an op created during trace
parsing (`op_type + '_' + count`, or a leaf module name), or the name
`'Split_' + str(split_count)` of a split op (`_create_split_op`). -/
inductive OpName
  | orig (s : List Char)
  | split (k : Nat)
deriving DecidableEq, Repr

/-- The Python string an `OpName` denotes. -/
def OpName.render : OpName → List Char
  | orig s => s
  | split k => "Split_".data ++ (Nat.repr k).data

/-- A product name, by construction site:
`linkP`: `parent.name + '_to_' + current.name`
(`_create_and_link_inter_op_product`);
`splitOut`: `split_op.name + '__to__' + 'multiple_ops'`
(`_create_split_op_output_product`);
`toSplit`: `preceding_op.name + '__to__' + split_op.name`
(`_insert_split_op_in_connected_graph`, step 3). -/
inductive ProductName
  | linkP (parent child : OpName)
  | splitOut (sp : OpName)
  | toSplit (parent sp : OpName)
deriving DecidableEq, Repr

/-- The Python string a `ProductName` denotes. -/
def ProductName.render : ProductName → List Char
  | linkP p c => p.render ++ "_to_".data ++ c.render
  | splitOut sp => sp.render ++ "__to__multiple_ops".data
  | toSplit p sp => p.render ++ "__to__".data ++ sp.render

/-- The tracked fields of an `Op`. -/
structure GOp where
  name : OpName
  dottedName : List Char
  output : Option ProductName
deriving DecidableEq, Repr

/-- The tracked fields of a `Product`. -/
structure GProduct where
  name : ProductName
  producer : Option OpName
  consumers : List OpName
deriving DecidableEq, Repr

/-- The tracked state of a `ConnectedGraph`: the op and product
dictionaries (insertion-ordered, keyed by name), `_split_count` and
`_model_name`. -/
structure CGraph where
  ops : List GOp
  products : List GProduct
  splitCount : Nat
  modelName : List Char
deriving DecidableEq, Repr

/-- Lookup in the op dictionary. -/
def findOp (g : CGraph) (n : OpName) : Option GOp :=
  g.ops.find? fun o => decide (o.name = n)

/-- Lookup in the product dictionary. -/
def findProduct (g : CGraph) (n : ProductName) : Option GProduct :=
  g.products.find? fun p => decide (p.name = n)

/-- Pointwise form of the assignment `op.output = out` on the op dict. -/
def updOut (n : OpName) (out : Option ProductName) (o : GOp) : GOp :=
  if o.name = n then { o with output := out } else o

/-- Pointwise form of the assignment `product.producer = pr`. -/
def updProducer (n : ProductName) (pr : Option OpName) (p : GProduct) :
    GProduct :=
  if p.name = n then { p with producer := pr } else p

/-- Pointwise form of `product.consumers.append(c)`. -/
def updConsumer (n : ProductName) (c : OpName) (p : GProduct) : GProduct :=
  if p.name = n then { p with consumers := p.consumers ++ [c] } else p

/-- Assignment `op.output = out` for the op named `n`. -/
def setOpOutput (g : CGraph) (n : OpName) (out : Option ProductName) :
    CGraph :=
  { g with ops := g.ops.map (updOut n out) }

/-- Assignment `product.producer = pr` for the product named `n`. -/
def setProductProducer (g : CGraph) (n : ProductName) (pr : Option OpName) :
    CGraph :=
  { g with products := g.products.map (updProducer n pr) }

/-- `product.add_consumer(c)` / `product.consumers.append(c)` for the
product named `n`. -/
def addProductConsumer (g : CGraph) (n : ProductName) (c : OpName) : CGraph :=
  { g with products := g.products.map (updConsumer n c) }

/-- `_create_and_link_inter_op_product(parent_op, current_op)`: create the
product `parent + '_to_' + current` if absent, then
`parent_op.output = input_product`, `input_product.producer = parent_op`,
`input_product.add_consumer(current_op)` (the consumer-side
`current_op.add_input` touches only the untracked input-slot list). -/
def create_and_link_inter_op_product (g : CGraph) (parent current : OpName) :
    CGraph :=
  let productName := ProductName.linkP parent current
  let g1 := if (findProduct g productName).isSome then g
    else { g with products := g.products ++ [⟨productName, none, []⟩] }
  let g2 := setOpOutput g1 parent (some productName)
  let g3 := setProductProducer g2 productName (some parent)
  addProductConsumer g3 productName current

/-- `get_product_names_from_dotted_name`: the names of all products whose
producer op's dotted name matches the argument. -/
def get_product_names_from_dotted_name (g : CGraph) (dotted : List Char) :
    List ProductName :=
  g.products.filterMap fun p =>
    match p.producer with
    | some producerName =>
        match findOp g producerName with
        | some o => if o.dottedName = dotted then some p.name else none
        | none => none
    | none => none

/-- First index at which `pat` occurs in `s`, if any. -/
def pyFindAux (pat s : List Char) : Option Nat :=
  if pat.isPrefixOf s then some 0
  else
    match s with
    | [] => none
    | _ :: t => (pyFindAux pat t).map (· + 1)

/-- Python `s.find(pat)`: first occurrence index, `-1` when absent. -/
def pyFind (s pat : List Char) : Int :=
  match pyFindAux pat s with
  | some n => (n : Int)
  | none => -1

/-- Python slice `s[:i]`, including the negative-index convention. -/
def pySliceTo (s : List Char) (i : Int) : List Char :=
  if i < 0 then s.take (s.length - (-i).toNat) else s.take i.toNat

/-- Python substring test `pat in s`. -/
def isSub (pat s : List Char) : Bool :=
  match s with
  | [] => pat.isPrefixOf []
  | c :: t => pat.isPrefixOf (c :: t) || isSub pat t

/-- `_create_split_op`: create the op `'Split_' + str(split_count)` with
dotted name `model_name + '.' + split_name`, register it in the op
dictionary, and bump `_split_count`; returns the new op's name. -/
def create_split_op (g : CGraph) : CGraph × OpName :=
  let splitName := OpName.split g.splitCount
  (⟨g.ops ++ [⟨splitName,
      g.modelName ++ '.' :: OpName.render splitName, none⟩],
    g.products, g.splitCount + 1, g.modelName⟩, splitName)

/-- `_create_split_op_output_product`: `_add_product` of
`split_name + '__to__' + 'multiple_ops'` followed by
`split_op_product.producer = split_op`.  (`_add_product` asserts freshness
of the name; in every state covered by the theorems below the name is
fresh, and the model appends unconditionally.) -/
def create_split_op_output_product (g : CGraph) (sp : OpName) : CGraph :=
  { g with products := g.products ++ [⟨ProductName.splitOut sp, some sp, []⟩] }

/-- `_add_consumers_to_split_op_product`: for each of the preceding op's
output products — those matching its dotted name, filtered by the
`preceding_op.name in name` substring test — append the product's first
consumer to the split product's consumer list.  (The consumer-side
`a_consumer.inputs[...] = split_op_product` rewiring touches only the
untracked input slots.) -/
def add_consumers_to_split_op_product (g : CGraph) (preceding : GOp)
    (spProd : ProductName) : CGraph :=
  let outNames := (get_product_names_from_dotted_name g
      preceding.dottedName).filter
    fun pn => isSub preceding.name.render pn.render
  outNames.foldl
    (fun g' pn =>
      match findProduct g' pn with
      | some p =>
          addProductConsumer g' spProd (p.consumers.headD (OpName.orig []))
      | none => g')
    g

/-- `_insert_split_op_in_connected_graph(preceding_op, split_op)`:
1. create the split op's output product and bind it as the split op's
output; 2. add the fan-out consumers to it; 3. delete the preceding op's
output products (those whose name passes the `preceding_op.name in name`
test), then create `preceding + '__to__' + split`, set its producer, bind
it as the preceding op's output and append the split op as consumer. -/
def insert_split_op_in_connected_graph (g : CGraph) (preceding : GOp)
    (sp : OpName) : CGraph :=
  let g1 := create_split_op_output_product g sp
  let g2 := setOpOutput g1 sp (some (ProductName.splitOut sp))
  let g3 := add_consumers_to_split_op_product g2 preceding
    (ProductName.splitOut sp)
  let delNames := (get_product_names_from_dotted_name g3
      preceding.dottedName).filter
    fun pn => isSub preceding.name.render pn.render
  let g4 : CGraph := ⟨g3.ops,
    g3.products.filter (fun p => decide (p.name ∉ delNames)),
    g3.splitCount, g3.modelName⟩
  let newName := ProductName.toSplit preceding.name sp
  let g5 : CGraph := ⟨g4.ops,
    g4.products ++ [⟨newName, some preceding.name, [sp]⟩],
    g4.splitCount, g4.modelName⟩
  setOpOutput g5 preceding.name (some newName)

/-- `_determine_split_behavior_for_op_and_insert_split_op_in_connected_graph`:
collect the op's output product names by dotted name; cut each at the
first occurrence of `'to'` (`prod_name[:prod_name.find('to')]`); if there
is more than one output product and more than one of the cut prefixes
contains the op's name, create a split op and insert it. -/
def determine_split_behavior (g : CGraph) (opName : OpName) : CGraph :=
  match findOp g opName with
  | none => g
  | some op =>
      let outputProductNames := get_product_names_from_dotted_name g
        op.dottedName
      let nameList := outputProductNames.map
        fun pn => pySliceTo pn.render (pyFind pn.render "to".data)
      if outputProductNames.length > 1 then
        if (nameList.filter fun fn => isSub op.name.render fn).length > 1 then
          let gs := create_split_op g
          insert_split_op_in_connected_graph gs.1 op gs.2
        else g
      else g

/-- The inter-op linking performed while parsing the trace
(`_create_op_and_products` resolving each input to an `Op` calls
`_create_and_link_inter_op_product`): one call per resolved
producer/consumer pair, in trace order. -/
def buildLinks (g : CGraph) (edges : List (OpName × OpName)) : CGraph :=
  edges.foldl (fun g' e => create_and_link_inter_op_product g' e.1 e.2) g

/-- The split-insertion pass of `_construct_graph`:
`ops_list = [op for op in self._ops.values()]` (a snapshot taken before any
split op is added), then
`_determine_split_behavior_for_op_and_insert_split_op_in_connected_graph`
for each op in it. -/
def split_phase (g : CGraph) : CGraph :=
  (g.ops.map (·.name)).foldl determine_split_behavior g

/-- The stage of `_construct_graph` the producer/output claim is about:
starting from the trace-parsed ops, run the inter-op linking and then the
split-insertion pass. -/
def construct_graph_split_stage (ops0 : List GOp)
    (edges : List (OpName × OpName)) (modelName : List Char) : CGraph :=
  split_phase (buildLinks ⟨ops0, [], 0, modelName⟩ edges)

/-- The claim's invariant: every Product that has a producer Op is exactly
that producer Op's recorded output Product. -/
def producerConsistentB (g : CGraph) : Bool :=
  g.products.all fun p =>
    match p.producer with
    | none => true
    | some opName =>
        match findOp g opName with
        | none => false
        | some o => decide (o.output = some p.name)

/-- **C8 (counterexample).** A graph completing construction on which the
producer/output invariant fails: an op named `topk_0` — `'to'` occurs in
the name before the `'_to_'` separator of its product names, so
`prod_name[:prod_name.find('to')]` cuts the names to the empty string, the
`name in prod` test fails, and no split op is inserted — feeding two
consumers.  After construction the two products `topk_0_to_relu_1` and
`topk_0_to_relu_2` both record `topk_0` as producer while `topk_0.output`
is only the latter. -/
theorem connectedgraph_producer_output_counterexample :
    producerConsistentB (construct_graph_split_stage
      [⟨OpName.orig "topk_0".data, "topk_0".data, none⟩,
       ⟨OpName.orig "relu_1".data, "relu_1".data, none⟩,
       ⟨OpName.orig "relu_2".data, "relu_2".data, none⟩]
      [(OpName.orig "topk_0".data, OpName.orig "relu_1".data),
       (OpName.orig "topk_0".data, OpName.orig "relu_2".data)]
      "model".data) = false := by decide

/-! ### The producer/output invariant, amended

The invariant does hold after the split-insertion pass for every graph
whose (trace-parse stage) op names do not contain the substring `'to'`.
The remainder of this section proves it.  `cleanOpName` is the decidable
side condition; the other hypotheses of the main theorem state
well-formedness of the trace-parse output itself: distinct op names,
distinct dotted names (each module/functional call produced its own op),
outputs still unbound, dotted names not of the reserved
`<model>.Split_<k>` shape, and edges between existing ops. -/

/-- An op name from the trace-parse stage that does not contain the
substring `'to'`. -/
def cleanOpName : OpName → Bool
  | .orig s => !(isSub "to".data s)
  | .split _ => false

/-- The names of the products recorded as produced by the op named `n`. -/
def producedNames (g : CGraph) (n : OpName) : List ProductName :=
  (g.products.filter fun p => decide (p.producer = some n)).map (·.name)

theorem find?_name_eq_of_nodup (l : List GOp)
    (hnd : (l.map (·.name)).Nodup) (o : GOp) (ho : o ∈ l) :
    l.find? (fun x => decide (x.name = o.name)) = some o := by
  induction l with
  | nil => simp at ho
  | cons a t ih =>
      rcases List.mem_cons.mp ho with rfl | hot
      · simp [List.find?_cons]
      · have hne : a.name ≠ o.name := by
          intro h
          have : o.name ∈ t.map (·.name) := List.mem_map_of_mem _ hot
          rw [← h] at this
          exact (List.nodup_cons.mp hnd).1 this
        have hd : decide (a.name = o.name) = false := by simp [hne]
        show (match decide (a.name = o.name) with
          | true => some a
          | false => t.find? (fun x => decide (x.name = o.name))) = some o
        rw [hd]
        exact ih (List.nodup_cons.mp hnd).2 hot

theorem findOp_eq_of_mem (g : CGraph) (hnd : (g.ops.map (·.name)).Nodup)
    (o : GOp) (ho : o ∈ g.ops) : findOp g o.name = some o :=
  find?_name_eq_of_nodup g.ops hnd o ho

theorem findOp_isSome_of_mem (g : CGraph) (n : OpName)
    (h : n ∈ g.ops.map (·.name)) : ∃ o ∈ g.ops, findOp g n = some o := by
  rcases List.mem_map.mp h with ⟨o, ho, hname⟩
  subst hname
  unfold findOp
  rcases hfind : g.ops.find? (fun x => decide (x.name = o.name)) with _ | o'
  · exfalso
    have := List.find?_eq_none.mp hfind o ho
    simp at this
  · exact ⟨o', List.mem_of_find?_eq_some hfind, hfind⟩

theorem findOp_name (g : CGraph) (n : OpName) (o : GOp)
    (h : findOp g n = some o) : o.name = n ∧ o ∈ g.ops := by
  refine ⟨?_, List.mem_of_find?_eq_some h⟩
  have := List.find?_some h
  simpa using this

theorem findProduct_none_iff (g : CGraph) (n : ProductName) :
    findProduct g n = none ↔ n ∉ g.products.map (·.name) := by
  constructor
  · intro h hmem
    rcases List.mem_map.mp hmem with ⟨p, hp, hname⟩
    have := List.find?_eq_none.mp h p hp
    simp [hname] at this
  · intro h
    apply List.find?_eq_none.mpr
    intro p hp
    simp only [decide_eq_true_eq]
    intro hname
    exact h (List.mem_map.mpr ⟨p, hp, hname⟩)

/-- Members of a list of length at most one are equal. -/
theorem mem_eq_of_length_le_one {α : Type} {l : List α} (h : l.length ≤ 1)
    {x y : α} (hx : x ∈ l) (hy : y ∈ l) : x = y := by
  cases l with
  | nil => simp at hx
  | cons a t =>
      cases t with
      | nil =>
          simp only [List.mem_singleton] at hx hy
          rw [hx, hy]
      | cons b u => simp at h

theorem isSub_nil_left (s : List Char) : isSub [] s = true := by
  cases s <;> simp [isSub, List.isPrefixOf]

theorem isSub_of_isPrefixOf (pat s : List Char)
    (h : pat.isPrefixOf s = true) : isSub pat s = true := by
  cases s with
  | nil => simpa [isSub] using h
  | cons c t => simp [isSub, h]

theorem isPrefixOf_append_self (s r : List Char) :
    s.isPrefixOf (s ++ r) = true := by
  induction s with
  | nil => cases r <;> rfl
  | cons c t ih => simp [List.isPrefixOf, ih]

theorem isSub_append_self (s r : List Char) : isSub s (s ++ r) = true :=
  isSub_of_isPrefixOf s (s ++ r) (isPrefixOf_append_self s r)

theorem isSub_cons_elim (pat : List Char) (c : Char) (t : List Char)
    (h : isSub pat (c :: t) = false) :
    pat.isPrefixOf (c :: t) = false ∧ isSub pat t = false := by
  have := h
  rw [isSub] at this
  exact Bool.or_eq_false_iff.mp this

theorem pyFindAux_to_sep (s : List Char) (h : isSub "to".data s = false) :
    ∀ r : List Char,
      pyFindAux "to".data (s ++ '_' :: 't' :: 'o' :: '_' :: r)
        = some (s.length + 1) := by
  induction s with
  | nil =>
      intro r
      rw [List.nil_append, pyFindAux]
      rw [if_neg (by simp [List.isPrefixOf])]
      rw [pyFindAux, if_pos (by simp [List.isPrefixOf])]
      rfl
  | cons c t ih =>
      intro r
      rcases isSub_cons_elim _ _ _ h with ⟨hpre, hrest⟩
      have hpre2 : "to".data.isPrefixOf
          (c :: (t ++ '_' :: 't' :: 'o' :: '_' :: r)) = false := by
        cases t with
        | nil =>
            simp [List.isPrefixOf]
        | cons c2 t2 =>
            simp only [List.isPrefixOf, List.cons_append] at hpre ⊢
            simpa using hpre
      rw [List.cons_append, pyFindAux, if_neg (by simp [hpre2])]
      rw [ih hrest r]
      simp [List.length_cons]

theorem pyFind_linkP_orig (s : List Char) (b : OpName)
    (h : isSub "to".data s = false) :
    pyFind (ProductName.linkP (OpName.orig s) b).render "to".data
      = ((s.length + 1 : Nat) : Int) := by
  have hr : (ProductName.linkP (OpName.orig s) b).render
      = s ++ '_' :: 't' :: 'o' :: '_' :: b.render := by
    show s ++ "_to_".data ++ b.render = _
    rw [List.append_assoc]
    rfl
  rw [pyFind, hr, pyFindAux_to_sep s h b.render]

theorem take_append_cons (s rest : List Char) (x : Char) :
    (s ++ x :: rest).take (s.length + 1) = s ++ [x] := by
  induction s with
  | nil => rfl
  | cons c t ih => simpa [List.take] using ih

theorem pySliceTo_linkP_orig (s : List Char) (b : OpName)
    (h : isSub "to".data s = false) :
    pySliceTo (ProductName.linkP (OpName.orig s) b).render
      (pyFind (ProductName.linkP (OpName.orig s) b).render "to".data)
      = s ++ ['_'] := by
  have hr : (ProductName.linkP (OpName.orig s) b).render
      = s ++ '_' :: 't' :: 'o' :: '_' :: b.render := by
    show s ++ "_to_".data ++ b.render = _
    rw [List.append_assoc]
    rfl
  rw [pyFind_linkP_orig s b h, pySliceTo, if_neg (by omega)]
  have htn : (((s.length + 1 : Nat) : Int)).toNat = s.length + 1 := by
    omega
  rw [htn, hr, take_append_cons]

/-- The name-prefix filter of the split-detection logic keeps every
`linkP`-product of an op whose name does not contain `'to'`. -/
theorem split_filter_keeps (s : List Char) (b : OpName)
    (h : isSub "to".data s = false) :
    isSub (OpName.orig s).render
      (pySliceTo (ProductName.linkP (OpName.orig s) b).render
        (pyFind (ProductName.linkP (OpName.orig s) b).render "to".data))
      = true := by
  rw [pySliceTo_linkP_orig s b h]
  exact isSub_append_self s ['_']

/-- `preceding_op.name in name` holds for every of the op's own
`linkP`-products. -/
theorem isSub_name_linkP (s : List Char) (b : OpName) :
    isSub (OpName.orig s).render (ProductName.linkP (OpName.orig s) b).render
      = true := by
  show isSub s (s ++ "_to_".data ++ b.render) = true
  rw [List.append_assoc]
  exact isSub_append_self s _

theorem setOpOutput_products (g : CGraph) (n : OpName)
    (out : Option ProductName) : (setOpOutput g n out).products = g.products
  := rfl

theorem setOpOutput_splitCount (g : CGraph) (n : OpName)
    (out : Option ProductName) :
    (setOpOutput g n out).splitCount = g.splitCount := rfl

theorem setOpOutput_modelName (g : CGraph) (n : OpName)
    (out : Option ProductName) :
    (setOpOutput g n out).modelName = g.modelName := rfl

theorem updOut_preserve (n : OpName) (out : Option ProductName) (o : GOp) :
    (updOut n out o).name = o.name
      ∧ (updOut n out o).dottedName = o.dottedName := by
  by_cases h : o.name = n <;> simp [updOut, h]

theorem updProducer_preserve (n : ProductName) (pr : Option OpName)
    (p : GProduct) :
    (updProducer n pr p).name = p.name := by
  by_cases h : p.name = n <;> simp [updProducer, h]

theorem updConsumer_preserve (n : ProductName) (c : OpName) (p : GProduct) :
    (updConsumer n c p).name = p.name
      ∧ (updConsumer n c p).producer = p.producer := by
  by_cases h : p.name = n <;> simp [updConsumer, h]

theorem setOpOutput_ops_pairs (g : CGraph) (n : OpName)
    (out : Option ProductName) :
    (setOpOutput g n out).ops.map (fun o => (o.name, o.dottedName))
      = g.ops.map (fun o => (o.name, o.dottedName)) := by
  show (g.ops.map _).map _ = _
  rw [List.map_map]
  apply List.map_congr_left
  intro o _
  simp [(updOut_preserve n out o).1, (updOut_preserve n out o).2]

theorem setOpOutput_ops_names (g : CGraph) (n : OpName)
    (out : Option ProductName) :
    (setOpOutput g n out).ops.map (·.name) = g.ops.map (·.name) := by
  show (g.ops.map _).map _ = _
  rw [List.map_map]
  apply List.map_congr_left
  intro o _
  simp [(updOut_preserve n out o).1]

theorem producedNames_setOpOutput (g : CGraph) (n m : OpName)
    (out : Option ProductName) :
    producedNames (setOpOutput g n out) m = producedNames g m := rfl

/-- Name- and producer-preserving rewrites of the product list leave the
produced-names map unchanged. -/
theorem producedNames_map_preserve (l : List GProduct)
    (f : GProduct → GProduct)
    (hf : ∀ p ∈ l, (f p).name = p.name ∧ (f p).producer = p.producer)
    (n : OpName) :
    ((l.map f).filter (fun p => decide (p.producer = some n))).map (·.name)
      = (l.filter (fun p => decide (p.producer = some n))).map (·.name) := by
  induction l with
  | nil => rfl
  | cons p t ih =>
      have hp := hf p (List.mem_cons_self p t)
      have ht : ∀ q ∈ t, (f q).name = q.name ∧ (f q).producer = q.producer :=
        fun q hq => hf q (List.mem_cons_of_mem p hq)
      simp only [List.map_cons, List.filter_cons, hp.2]
      by_cases h : p.producer = some n
      · simp [h, hp.1, ih ht]
      · simp [h, ih ht]

theorem names_map_preserve (l : List GProduct) (f : GProduct → GProduct)
    (hf : ∀ p ∈ l, (f p).name = p.name) :
    (l.map f).map (·.name) = l.map (·.name) := by
  rw [List.map_map]
  apply List.map_congr_left
  intro p hp
  exact hf p hp

/-- Pointwise description of `get_product_names_from_dotted_name` as the
produced-names of a single op. -/
theorem filterMap_eq_produced (l : List GProduct)
    (F : GProduct → Option ProductName) (a : OpName)
    (H : ∀ p ∈ l, F p = if p.producer = some a then some p.name else none) :
    l.filterMap F
      = (l.filter (fun p => decide (p.producer = some a))).map (·.name) := by
  induction l with
  | nil => rfl
  | cons p t ih =>
      have hp := H p (List.mem_cons_self p t)
      have ht : ∀ q ∈ t, F q = if q.producer = some a
          then some q.name else none :=
        fun q hq => H q (List.mem_cons_of_mem p hq)
      rw [List.filterMap_cons, List.filter_cons]
      by_cases h : p.producer = some a
      · rw [hp, if_pos h]
        simp [h, ih ht]
      · rw [hp, if_neg h]
        simp [h, ih ht]

/-- The dotted-name product query collapses to the query op's own product
list when every producer resolves and only the query op's dotted name
matches. -/
theorem query_eq_produced (g : CGraph) (a : OpName) (d : List Char)
    (H : ∀ p ∈ g.products, ∀ x, p.producer = some x →
      match findOp g x with
      | some o => (o.dottedName = d ↔ x = a)
      | none => x ≠ a) :
    get_product_names_from_dotted_name g d = producedNames g a := by
  unfold get_product_names_from_dotted_name producedNames
  apply filterMap_eq_produced
  intro p hp
  rcases hppr : p.producer with _ | x
  · simp
  · have hx := H p hp x hppr
    show (match findOp g x with
      | some o => if o.dottedName = d then some p.name else none
      | none => none) = if some x = some a then some p.name else none
    rcases hfind : findOp g x with _ | o
    · rw [hfind] at hx
      have hx' : x ≠ a := hx
      simp [hx']
    · rw [hfind] at hx
      have hx' : o.dottedName = d ↔ x = a := hx
      by_cases hdot : o.dottedName = d
      · simp [hdot, hx'.mp hdot]
      · have hxa : x ≠ a := fun hh => hdot (hx'.mpr hh)
        simp [hdot, hxa]

theorem findProduct_name (g : CGraph) (n : ProductName) (p : GProduct)
    (h : findProduct g n = some p) : p.name = n ∧ p ∈ g.products := by
  refine ⟨?_, List.mem_of_find?_eq_some h⟩
  have := List.find?_some h
  simpa using this

theorem cleanOpName_orig (n : OpName) (h : cleanOpName n = true) :
    ∃ s, n = OpName.orig s ∧ isSub "to".data s = false := by
  cases n with
  | orig s =>
      refine ⟨s, rfl, ?_⟩
      simpa [cleanOpName] using h
  | split k => simp [cleanOpName] at h

theorem map_update_skip (l : List GProduct) (pn : ProductName)
    (f : GProduct → GProduct) (h : ∀ p ∈ l, p.name ≠ pn) :
    l.map (fun p => if p.name = pn then f p else p) = l := by
  conv_rhs => rw [← List.map_id l]
  apply List.map_congr_left
  intro p hp
  simp [h p hp]

theorem map_producer_noop (l : List GProduct) (pn : ProductName)
    (parent : OpName) (h : ∀ p ∈ l, p.name = pn → p.producer = some parent) :
    l.map (updProducer pn (some parent)) = l := by
  conv_rhs => rw [← List.map_id l]
  apply List.map_congr_left
  intro p hp
  by_cases hn : p.name = pn
  · rw [updProducer, if_pos hn]
    have := h p hp hn
    cases p
    simp at this ⊢
    exact this.symm
  · rw [updProducer, if_neg hn]
    rfl

/-- `producedNames` only reads the product list; appending one product
appends its name to its own producer's list and no other. -/
theorem producedNames_append_single (ops' : List GOp) (l : List GProduct)
    (P : GProduct) (sc : Nat) (mn : List Char) (m : OpName) :
    producedNames ⟨ops', l ++ [P], sc, mn⟩ m
      = producedNames ⟨ops', l, sc, mn⟩ m
        ++ (if P.producer = some m then [P.name] else []) := by
  simp only [producedNames, List.filter_append, List.map_append]
  congr 1
  by_cases h : P.producer = some m
  · simp [List.filter, h]
  · simp [List.filter, h]

theorem producedNames_products_eq (g g' : CGraph)
    (h : g'.products = g.products) (m : OpName) :
    producedNames g' m = producedNames g m := by
  simp [producedNames, h]

theorem addProductConsumer_eq (g : CGraph) (n : ProductName) (c : OpName) :
    addProductConsumer g n c = ⟨g.ops,
      g.products.map (updConsumer n c),
      g.splitCount, g.modelName⟩ := rfl

theorem foldl_consumer_shape (ns : List ProductName) (spProd : ProductName) :
    ∀ g : CGraph, ∃ f : GProduct → GProduct,
      (∀ p, (f p).name = p.name ∧ (f p).producer = p.producer) ∧
      (ns.foldl
        (fun g' pn =>
          match findProduct g' pn with
          | some p =>
              addProductConsumer g' spProd (p.consumers.headD (OpName.orig []))
          | none => g')
        g)
        = ⟨g.ops, g.products.map f, g.splitCount, g.modelName⟩ := by
  induction ns with
  | nil =>
      intro g
      refine ⟨id, by simp, ?_⟩
      cases g
      simp
  | cons a t ih =>
      intro g
      have hstep : ∃ f1 : GProduct → GProduct,
          (∀ p, (f1 p).name = p.name ∧ (f1 p).producer = p.producer) ∧
          (match findProduct g a with
            | some p =>
                addProductConsumer g spProd (p.consumers.headD (OpName.orig []))
            | none => g)
            = ⟨g.ops, g.products.map f1, g.splitCount, g.modelName⟩ := by
        rcases findProduct g a with _ | p
        · refine ⟨id, by simp, ?_⟩
          cases g
          simp
        · refine ⟨updConsumer spProd (p.consumers.headD (OpName.orig [])),
            ?_, ?_⟩
          · intro q
            exact updConsumer_preserve spProd _ q
          · exact addProductConsumer_eq g spProd _
      rcases hstep with ⟨f1, hf1, hg1⟩
      rcases ih ⟨g.ops, g.products.map f1, g.splitCount, g.modelName⟩
        with ⟨f2, hf2, hg2⟩
      refine ⟨f2 ∘ f1, ?_, ?_⟩
      · intro p
        refine ⟨?_, ?_⟩
        · rw [Function.comp_apply, (hf2 (f1 p)).1, (hf1 p).1]
        · rw [Function.comp_apply, (hf2 (f1 p)).2, (hf1 p).2]
      · rw [List.foldl_cons, hg1, hg2]
        simp [List.map_map]

theorem add_consumers_shape (g : CGraph) (pre : GOp) (spProd : ProductName) :
    ∃ f : GProduct → GProduct,
      (∀ p, (f p).name = p.name ∧ (f p).producer = p.producer) ∧
      add_consumers_to_split_op_product g pre spProd
        = ⟨g.ops, g.products.map f, g.splitCount, g.modelName⟩ := by
  unfold add_consumers_to_split_op_product
  exact foldl_consumer_shape _ spProd g

/-- The construction invariant tied to the split-insertion pass.  `ops0`
are the trace-parse-stage ops, `done` the ops already visited by the pass.
It records: the op dictionary is the original ops (names and dotted names
unchanged) followed by the created split ops, each bound to its output
product; op names and product names are unique; every product is either an
inter-op `linkP` product produced by an original op, a split op's output
product, or the `toSplit` product of an already-visited original op; every
op's `output` field is `None` exactly when the op produces nothing and
otherwise names one of its products; and every visited op produces at most
one product. -/
structure CInv (ops0 : List GOp) (modelName : List Char)
    (done : List OpName) (g : CGraph) : Prop where
  model_eq : g.modelName = modelName
  ops_decomp : ∃ origOps splitOps,
    g.ops = origOps ++ splitOps ∧
    origOps.map (fun o => (o.name, o.dottedName))
      = ops0.map (fun o => (o.name, o.dottedName)) ∧
    ∀ so ∈ splitOps, ∃ k, k < g.splitCount ∧ so.name = OpName.split k ∧
      so.dottedName = modelName ++ '.' :: OpName.render (OpName.split k) ∧
      so.output = some (ProductName.splitOut (OpName.split k))
  ops_nodup : (g.ops.map (·.name)).Nodup
  prods_nodup : (g.products.map (·.name)).Nodup
  prod_class : ∀ p ∈ g.products,
      (∃ a b, p.name = ProductName.linkP a b ∧ p.producer = some a ∧
        a ∈ ops0.map (·.name)) ∨
      (∃ k, k < g.splitCount ∧ p.name = ProductName.splitOut (OpName.split k) ∧
        p.producer = some (OpName.split k) ∧
        OpName.split k ∈ g.ops.map (·.name)) ∨
      (∃ a k, k < g.splitCount ∧
        p.name = ProductName.toSplit a (OpName.split k) ∧
        p.producer = some a ∧ a ∈ ops0.map (·.name) ∧ a ∈ done)
  outputs_good : ∀ o ∈ g.ops,
      (o.output = none ∧ producedNames g o.name = []) ∨
      (∃ pn, pn ∈ producedNames g o.name ∧ o.output = some pn)
  done_proc : ∀ a ∈ done, (producedNames g a).length ≤ 1
  done_sub : ∀ a ∈ done, a ∈ ops0.map (·.name)

/-- The invariant holds for the trace-parse output itself. -/
theorem cinv_init (ops0 : List GOp) (modelName : List Char)
    (hnames : (ops0.map (·.name)).Nodup)
    (hout : ∀ o ∈ ops0, o.output = none) :
    CInv ops0 modelName [] ⟨ops0, [], 0, modelName⟩ where
  model_eq := rfl
  ops_decomp := ⟨ops0, [], by simp, rfl, by simp⟩
  ops_nodup := hnames
  prods_nodup := by simp
  prod_class := by simp
  outputs_good := by
    intro o ho
    left
    exact ⟨hout o ho, rfl⟩
  done_proc := by simp
  done_sub := by simp

theorem cgraph_eta (x : CGraph) :
    (⟨x.ops, x.products, x.splitCount, x.modelName⟩ : CGraph) = x := by
  cases x
  rfl

theorem ops_pairs_map (l : List GOp) (fo : GOp → GOp)
    (h : ∀ o ∈ l, (fo o).name = o.name ∧ (fo o).dottedName = o.dottedName) :
    (l.map fo).map (fun o => (o.name, o.dottedName))
      = l.map (fun o => (o.name, o.dottedName)) := by
  rw [List.map_map]
  apply List.map_congr_left
  intro o ho
  simp [(h o ho).1, (h o ho).2]

theorem ops_names_map (l : List GOp) (fo : GOp → GOp)
    (h : ∀ o ∈ l, (fo o).name = o.name) :
    (l.map fo).map (·.name) = l.map (·.name) := by
  rw [List.map_map]
  apply List.map_congr_left
  intro o ho
  simp [h o ho]

theorem map_skip_splits (SO : List GOp) (s : List Char)
    (out : Option ProductName) (sc : Nat)
    (hso : ∀ so ∈ SO, ∃ k, k < sc ∧ so.name = OpName.split k) :
    SO.map (updOut (OpName.orig s) out) = SO := by
  conv_rhs => rw [← List.map_id SO]
  apply List.map_congr_left
  intro so hso'
  rcases hso so hso' with ⟨k, _, hname⟩
  rw [updOut, if_neg (by rw [hname]; simp)]
  rfl

theorem cgraph_ext (x y : CGraph) (h1 : x.ops = y.ops)
    (h2 : x.products = y.products) (h3 : x.splitCount = y.splitCount)
    (h4 : x.modelName = y.modelName) : x = y := by
  cases x
  cases y
  simp only at h1 h2 h3 h4
  rw [h1, h2, h3, h4]

theorem map_producer_skip (l : List GProduct) (pn : ProductName)
    (pr : Option OpName) (h : ∀ p ∈ l, p.name ≠ pn) :
    l.map (updProducer pn pr) = l :=
  map_update_skip l pn _ h

theorem map_consumer_skip (l : List GProduct) (pn : ProductName) (c : OpName)
    (h : ∀ p ∈ l, p.name ≠ pn) :
    l.map (updConsumer pn c) = l :=
  map_update_skip l pn _ h

theorem setOpOutput_eq (g : CGraph) (n : OpName) (out : Option ProductName) :
    setOpOutput g n out = ⟨g.ops.map (updOut n out),
      g.products, g.splitCount, g.modelName⟩ := rfl

theorem setProductProducer_eq (g : CGraph) (n : ProductName)
    (pr : Option OpName) :
    setProductProducer g n pr = ⟨g.ops,
      g.products.map (updProducer n pr),
      g.splitCount, g.modelName⟩ := rfl

theorem create_and_link_eq (g : CGraph) (parent current : OpName) :
    create_and_link_inter_op_product g parent current
      = addProductConsumer
          (setProductProducer
            (setOpOutput
              (if (findProduct g (ProductName.linkP parent current)).isSome
               then g
               else { g with products := g.products
                 ++ [⟨ProductName.linkP parent current, none, []⟩] })
              parent (some (ProductName.linkP parent current)))
            (ProductName.linkP parent current) (some parent))
          (ProductName.linkP parent current) current := rfl

/-- `_create_and_link_inter_op_product` preserves the construction
invariant before any op has been visited by the split pass. -/
theorem cinv_link (ops0 : List GOp) (modelName : List Char) (g : CGraph)
    (hcleanNames : ∀ n ∈ ops0.map (·.name), cleanOpName n = true)
    (inv : CInv ops0 modelName [] g) (parent current : OpName)
    (hpar : parent ∈ ops0.map (·.name)) :
    CInv ops0 modelName []
      (create_and_link_inter_op_product g parent current) := by
  obtain ⟨s, hps, hto⟩ := cleanOpName_orig parent (hcleanNames parent hpar)
  rcases inv.ops_decomp with ⟨OO, SO, hops, hpairs, hso⟩
  have hops_decomp' : ∀ R : CGraph,
      R.ops = g.ops.map (updOut parent
        (some (ProductName.linkP parent current))) →
      R.splitCount = g.splitCount →
      ∃ origOps splitOps,
        R.ops = origOps ++ splitOps ∧
        origOps.map (fun o => (o.name, o.dottedName))
          = ops0.map (fun o => (o.name, o.dottedName)) ∧
        ∀ so ∈ splitOps, ∃ k, k < R.splitCount ∧ so.name = OpName.split k ∧
          so.dottedName = modelName ++ '.' :: OpName.render (OpName.split k) ∧
          so.output = some (ProductName.splitOut (OpName.split k)) := by
    intro R hRops hRsc
    refine ⟨OO.map (updOut parent
      (some (ProductName.linkP parent current))), SO, ?_, ?_, ?_⟩
    · rw [hRops, hops, List.map_append]
      congr 1
      rw [hps]
      apply map_skip_splits SO s _ g.splitCount
      intro so hso'
      rcases hso so hso' with ⟨k, hk, hname, _, _⟩
      exact ⟨k, hk, hname⟩
    · rw [ops_pairs_map _ _ (fun o _ => updOut_preserve _ _ o), hpairs]
    · intro so hso'
      rcases hso so hso' with ⟨k, hk, h1, h2, h3⟩
      exact ⟨k, by rw [hRsc]; exact hk, h1, h2, h3⟩
  have hnames_eq : (g.ops.map (updOut parent
      (some (ProductName.linkP parent current)))).map (·.name)
        = g.ops.map (·.name) :=
    ops_names_map g.ops _ (fun o _ => (updOut_preserve _ _ o).1)
  rcases hfp : findProduct g (ProductName.linkP parent current) with _ | p0
  -- Case: the product does not exist yet; it is created and appended.
  · have hnot : ∀ p ∈ g.products,
        p.name ≠ ProductName.linkP parent current := by
      intro p hp h
      exact (findProduct_none_iff g _).mp hfp (List.mem_map.mpr ⟨p, hp, h⟩)
    have hres : create_and_link_inter_op_product g parent current
        = ⟨g.ops.map (updOut parent
            (some (ProductName.linkP parent current))),
          g.products ++ [⟨ProductName.linkP parent current,
            some parent, [current]⟩],
          g.splitCount, g.modelName⟩ := by
      rw [create_and_link_eq, hfp]
      apply cgraph_ext
      · rfl
      · show List.map (updConsumer (ProductName.linkP parent current) current)
            (List.map
              (updProducer (ProductName.linkP parent current) (some parent))
              (g.products
                ++ [(⟨ProductName.linkP parent current, none, []⟩ :
                      GProduct)]))
            = g.products ++ [(⟨ProductName.linkP parent current,
                some parent, [current]⟩ : GProduct)]
        rw [List.map_append, map_producer_skip g.products _ _ hnot,
          List.map_append, map_consumer_skip g.products _ _ hnot]
        simp [updProducer, updConsumer]
      · rfl
      · rfl
    rw [hres]
    refine ⟨inv.model_eq, hops_decomp' _ rfl rfl, ?_, ?_, ?_, ?_, ?_,
      inv.done_sub⟩
    · have h2 := inv.ops_nodup
      rw [← hnames_eq] at h2
      exact h2
    · have hnn : ((g.products ++ [(⟨ProductName.linkP parent current,
          some parent, [current]⟩ : GProduct)]).map (·.name)).Nodup := by
        rw [List.map_append]
        refine List.Nodup.append inv.prods_nodup (by simp) ?_
        intro x hx1 hx2
        simp only [List.map_cons, List.map_nil, List.mem_singleton] at hx2
        subst hx2
        exact (findProduct_none_iff g _).mp hfp hx1
      exact hnn
    · intro p hp
      rcases List.mem_append.mp hp with hpl | hpr
      · rcases inv.prod_class p hpl with h1 | h2 | h3
        · exact Or.inl h1
        · refine Or.inr (Or.inl ?_)
          rcases h2 with ⟨k, hk, hn, hpr', hmem⟩
          refine ⟨k, hk, hn, hpr', ?_⟩
          have h2 := hmem
          rw [← hnames_eq] at h2
          exact h2
        · exact Or.inr (Or.inr h3)
      · simp only [List.mem_singleton] at hpr
        subst hpr
        exact Or.inl ⟨parent, current, rfl, rfl, hpar⟩
    · intro o' ho'
      rcases List.mem_map.mp ho' with ⟨o, ho, rfl⟩
      by_cases hop : o.name = parent
      · right
        refine ⟨ProductName.linkP parent current, ?_, ?_⟩
        · rw [(updOut_preserve _ _ o).1, hop]
          exact List.mem_map.mpr
            ⟨⟨ProductName.linkP parent current, some parent, [current]⟩,
             List.mem_filter.mpr
               ⟨List.mem_append.mpr (Or.inr (by simp)), by simp⟩, rfl⟩
        · simp [updOut, hop]
      · rw [updOut, if_neg hop]
        have hpn : producedNames ⟨g.ops.map (updOut parent
              (some (ProductName.linkP parent current))),
            g.products ++ [⟨ProductName.linkP parent current,
              some parent, [current]⟩],
            g.splitCount, g.modelName⟩ o.name = producedNames g o.name := by
          rw [producedNames_append_single]
          rw [if_neg (by intro hh; exact hop (Option.some.inj hh).symm)]
          simp [producedNames]
        rw [hpn]
        exact inv.outputs_good o ho
    · intro a ha
      simp at ha
  -- Case: the product already exists; its producer is already the parent.
  · obtain ⟨hp0name, hp0mem⟩ := findProduct_name g _ p0 hfp
    have hprod0 : ∀ p ∈ g.products,
        p.name = ProductName.linkP parent current →
        p.producer = some parent := by
      intro p hp hname
      rcases inv.prod_class p hp with ⟨a, b, hnm, hpr', _⟩ |
        ⟨k, _, hnm, _, _⟩ | ⟨a, k, _, _, _, _, hdone⟩
      · rw [hname] at hnm
        injection hnm.symm with h1 h2
        rw [h1] at hpr'
        exact hpr'
      · rw [hname] at hnm
        simp at hnm
      · simp at hdone
    have hres : create_and_link_inter_op_product g parent current
        = ⟨g.ops.map (updOut parent
            (some (ProductName.linkP parent current))),
          g.products.map (updConsumer (ProductName.linkP parent current)
            current),
          g.splitCount, g.modelName⟩ := by
      rw [create_and_link_eq, hfp]
      apply cgraph_ext
      · rfl
      · show List.map (updConsumer (ProductName.linkP parent current) current)
            (List.map
              (updProducer (ProductName.linkP parent current) (some parent))
              g.products)
            = List.map (updConsumer (ProductName.linkP parent current) current)
              g.products
        rw [map_producer_noop g.products _ parent hprod0]
      · rfl
      · rfl
    have hpn : ∀ m : OpName,
        producedNames ⟨g.ops.map (updOut parent
            (some (ProductName.linkP parent current))),
          g.products.map (updConsumer (ProductName.linkP parent current)
            current),
          g.splitCount, g.modelName⟩ m = producedNames g m := by
      intro m
      exact producedNames_map_preserve g.products _
        (fun p _ => updConsumer_preserve _ _ p) m
    rw [hres]
    refine ⟨inv.model_eq, hops_decomp' _ rfl rfl, ?_, ?_, ?_, ?_, ?_,
      inv.done_sub⟩
    · have h2 := inv.ops_nodup
      rw [← hnames_eq] at h2
      exact h2
    · have hnn : ((g.products.map (updConsumer
          (ProductName.linkP parent current) current)).map (·.name)).Nodup
          := by
        rw [names_map_preserve g.products _
          (fun p _ => (updConsumer_preserve _ _ p).1)]
        exact inv.prods_nodup
      exact hnn
    · intro p' hp'
      rcases List.mem_map.mp hp' with ⟨p, hp, rfl⟩
      rcases inv.prod_class p hp with ⟨a, b, hnm, hpr', hmem⟩ |
        ⟨k, hk, hnm, hpr', hmem⟩ | ⟨a, k, hk, hnm, hpr', hmem, hdone⟩
      · exact Or.inl ⟨a, b, (updConsumer_preserve _ _ p).1.trans hnm,
          (updConsumer_preserve _ _ p).2.trans hpr', hmem⟩
      · refine Or.inr (Or.inl ⟨k, hk,
          (updConsumer_preserve _ _ p).1.trans hnm,
          (updConsumer_preserve _ _ p).2.trans hpr', ?_⟩)
        have h2 := hmem
        rw [← hnames_eq] at h2
        exact h2
      · exact Or.inr (Or.inr ⟨a, k, hk,
          (updConsumer_preserve _ _ p).1.trans hnm,
          (updConsumer_preserve _ _ p).2.trans hpr', hmem, hdone⟩)
    · intro o' ho'
      rcases List.mem_map.mp ho' with ⟨o, ho, rfl⟩
      by_cases hop : o.name = parent
      · right
        refine ⟨ProductName.linkP parent current, ?_, ?_⟩
        · rw [(updOut_preserve _ _ o).1, hop, hpn parent]
          exact List.mem_map.mpr ⟨p0, List.mem_filter.mpr
            ⟨hp0mem, by simp [hprod0 p0 hp0mem hp0name]⟩, hp0name⟩
        · simp [updOut, hop]
      · rw [updOut, if_neg hop, hpn o.name]
        exact inv.outputs_good o ho
    · intro a ha
      simp at ha


/-- The inter-op linking pass preserves the invariant. -/
theorem cinv_buildLinks (ops0 : List GOp) (modelName : List Char)
    (hcleanNames : ∀ n ∈ ops0.map (·.name), cleanOpName n = true) :
    ∀ (edges : List (OpName × OpName)) (g : CGraph),
      CInv ops0 modelName [] g →
      (∀ e ∈ edges, e.1 ∈ ops0.map (·.name)) →
      CInv ops0 modelName [] (buildLinks g edges) := by
  intro edges
  induction edges with
  | nil => exact fun g inv _ => inv
  | cons e t ih =>
      intro g inv he
      show CInv _ _ _
        (t.foldl (fun g' e' => create_and_link_inter_op_product g' e'.1 e'.2)
          (create_and_link_inter_op_product g e.1 e.2))
      exact ih (create_and_link_inter_op_product g e.1 e.2)
        (cinv_link ops0 modelName g hcleanNames inv e.1 e.2
          (he e (List.mem_cons_self e t)))
        (fun e' he' => he e' (List.mem_cons_of_mem e he'))

theorem find?_append_some {α : Type} (l₁ l₂ : List α) (p : α → Bool) (x : α)
    (h : l₁.find? p = some x) : (l₁ ++ l₂).find? p = some x := by
  induction l₁ with
  | nil => simp [List.find?] at h
  | cons a t ih =>
      rw [List.cons_append]
      rcases hpa : p a with _ | _
      · rw [List.find?_cons_of_neg _ (by simp [hpa])]
        rw [List.find?_cons_of_neg _ (by simp [hpa])] at h
        exact ih h
      · rw [List.find?_cons_of_pos _ hpa] at h ⊢
        exact h

theorem find?_append_none {α : Type} (l₁ l₂ : List α) (p : α → Bool)
    (h : l₁.find? p = none) : (l₁ ++ l₂).find? p = l₂.find? p := by
  induction l₁ with
  | nil => simp
  | cons a t ih =>
      rcases hpa : p a with _ | _
      · rw [List.find?_cons_of_neg _ (by simp [hpa])] at h
        rw [List.cons_append, List.find?_cons_of_neg _ (by simp [hpa])]
        exact ih h
      · rw [List.find?_cons_of_pos _ hpa] at h
        cases h

theorem product_name_inj (L : List GProduct)
    (h : (L.map (·.name)).Nodup) (p q : GProduct) (hp : p ∈ L) (hq : q ∈ L)
    (he : p.name = q.name) : p = q :=
  List.inj_on_of_nodup_map h hp hq he

theorem op_name_inj (L : List GOp)
    (h : (L.map (·.name)).Nodup) (p q : GOp) (hp : p ∈ L) (hq : q ∈ L)
    (he : p.name = q.name) : p = q :=
  List.inj_on_of_nodup_map h hp hq he

theorem pairs_to_names (l₁ l₂ : List GOp)
    (h : l₁.map (fun o => (o.name, o.dottedName))
      = l₂.map (fun o => (o.name, o.dottedName))) :
    l₁.map (·.name) = l₂.map (·.name)
      ∧ l₁.map (·.dottedName) = l₂.map (·.dottedName) := by
  constructor
  · have := congrArg (List.map Prod.fst) h
    simpa [List.map_map, Function.comp] using this
  · have := congrArg (List.map Prod.snd) h
    simpa [List.map_map, Function.comp] using this

theorem dotted_unique (ops0 : List GOp)
    (hdotted : (ops0.map (·.dottedName)).Nodup) (n1 n2 : OpName)
    (d : List Char)
    (h1 : (n1, d) ∈ ops0.map (fun o => (o.name, o.dottedName)))
    (h2 : (n2, d) ∈ ops0.map (fun o => (o.name, o.dottedName))) :
    n1 = n2 := by
  rcases List.mem_map.mp h1 with ⟨o1, ho1, he1⟩
  rcases List.mem_map.mp h2 with ⟨o2, ho2, he2⟩
  have hd1 : o1.dottedName = d := congrArg Prod.snd he1
  have hd2 : o2.dottedName = d := congrArg Prod.snd he2
  have ho12 : o1 = o2 :=
    List.inj_on_of_nodup_map hdotted ho1 ho2 (hd1.trans hd2.symm)
  have hn1 : o1.name = n1 := congrArg Prod.fst he1
  have hn2 : o2.name = n2 := congrArg Prod.fst he2
  rw [← hn1, ← hn2, ho12]

theorem filter_producer_filter_ne (L : List GProduct) (a m : OpName)
    (hm : m ≠ a) :
    (L.filter (fun p => decide (¬ p.producer = some a))).filter
        (fun p => decide (p.producer = some m))
      = L.filter (fun p => decide (p.producer = some m)) := by
  induction L with
  | nil => rfl
  | cons q t ih =>
      by_cases hq : q.producer = some a
      · rw [List.filter_cons_of_neg (by simp [hq])]
        rw [ih]
        have hne : ¬ q.producer = some m := by
          rw [hq]
          intro hh
          exact hm (Option.some.inj hh).symm
        rw [List.filter_cons_of_neg (by simp [hne])]
      · rw [List.filter_cons_of_pos (by simp [hq])]
        by_cases hqm : q.producer = some m
        · rw [List.filter_cons_of_pos (by simp [hqm]),
            List.filter_cons_of_pos (by simp [hqm]), ih]
        · rw [List.filter_cons_of_neg (by simp [hqm]),
            List.filter_cons_of_neg (by simp [hqm]), ih]

theorem filter_producer_filter_self (L : List GProduct) (a : OpName) :
    (L.filter (fun p => decide (¬ p.producer = some a))).filter
        (fun p => decide (p.producer = some a)) = [] := by
  induction L with
  | nil => rfl
  | cons q t ih =>
      by_cases hq : q.producer = some a
      · rw [List.filter_cons_of_neg (by simp [hq])]
        exact ih
      · rw [List.filter_cons_of_pos (by simp [hq]),
          List.filter_cons_of_neg (by simp [hq])]
        exact ih

theorem produced_mk (ops' : List GOp) (l : List GProduct) (sc : Nat)
    (mn : List Char) (m : OpName) :
    producedNames ⟨ops', l, sc, mn⟩ m
      = (l.filter (fun p => decide (p.producer = some m))).map (·.name) := rfl

theorem map_updOut_skip (l : List GOp) (n : OpName)
    (out : Option ProductName) (h : ∀ o ∈ l, o.name ≠ n) :
    l.map (updOut n out) = l := by
  conv_rhs => rw [← List.map_id l]
  apply List.map_congr_left
  intro o ho
  rw [updOut, if_neg (h o ho)]
  rfl

theorem create_split_op_eq (g : CGraph) :
    create_split_op g = (⟨g.ops ++ [⟨OpName.split g.splitCount,
        g.modelName ++ '.' :: OpName.render (OpName.split g.splitCount),
        none⟩],
      g.products, g.splitCount + 1, g.modelName⟩, OpName.split g.splitCount)
    := rfl

theorem insert_split_eq (g : CGraph) (pre : GOp) (sp : OpName) :
    insert_split_op_in_connected_graph g pre sp
      = setOpOutput
          ⟨(add_consumers_to_split_op_product
              (setOpOutput (create_split_op_output_product g sp) sp
                (some (ProductName.splitOut sp))) pre
              (ProductName.splitOut sp)).ops,
           ((add_consumers_to_split_op_product
              (setOpOutput (create_split_op_output_product g sp) sp
                (some (ProductName.splitOut sp))) pre
              (ProductName.splitOut sp)).products.filter
             (fun p => decide (p.name ∉
               ((get_product_names_from_dotted_name
                  (add_consumers_to_split_op_product
                    (setOpOutput (create_split_op_output_product g sp) sp
                      (some (ProductName.splitOut sp))) pre
                    (ProductName.splitOut sp))
                  pre.dottedName).filter
                (fun pn => isSub pre.name.render pn.render)))))
           ++ [⟨ProductName.toSplit pre.name sp, some pre.name, [sp]⟩],
           (add_consumers_to_split_op_product
              (setOpOutput (create_split_op_output_product g sp) sp
                (some (ProductName.splitOut sp))) pre
              (ProductName.splitOut sp)).splitCount,
           (add_consumers_to_split_op_product
              (setOpOutput (create_split_op_output_product g sp) sp
                (some (ProductName.splitOut sp))) pre
              (ProductName.splitOut sp)).modelName⟩
          pre.name (some (ProductName.toSplit pre.name sp)) := rfl

theorem determine_eq_of_found (g : CGraph) (n : OpName) (op : GOp)
    (h : findOp g n = some op) :
    determine_split_behavior g n =
      (if (get_product_names_from_dotted_name g op.dottedName).length > 1 then
        if (((get_product_names_from_dotted_name g op.dottedName).map
            (fun pn => pySliceTo pn.render (pyFind pn.render "to".data))).filter
            (fun fn => isSub op.name.render fn)).length > 1 then
          insert_split_op_in_connected_graph (create_split_op g).1 op
            (create_split_op g).2
        else g
      else g) := by
  unfold determine_split_behavior
  rw [h]

/-- One step of the split pass preserves the invariant, adding the visited
op to `done`. -/
theorem cinv_determine (ops0 : List GOp) (modelName : List Char)
    (hdotted : (ops0.map (·.dottedName)).Nodup)
    (hcleanNames : ∀ n ∈ ops0.map (·.name), cleanOpName n = true)
    (hdotted_clean : ∀ o ∈ ops0,
      ¬ (modelName ++ ".Split_".data) <+: o.dottedName)
    (g : CGraph) (done : List OpName) (a : OpName)
    (inv : CInv ops0 modelName done g)
    (ha : a ∈ ops0.map (·.name)) (hnd : a ∉ done) :
    CInv ops0 modelName (a :: done) (determine_split_behavior g a) := by
  obtain ⟨s, hps, hto⟩ := cleanOpName_orig a (hcleanNames a ha)
  rcases hdecomp : inv.ops_decomp with ⟨OO, SO, hops, hpairs, hso⟩
  obtain ⟨hOOn, hOOd⟩ := pairs_to_names OO ops0 hpairs
  -- the visited op resolves to an original op `oA` with dotted name `d`
  have haOO : a ∈ OO.map (·.name) := by rw [hOOn]; exact ha
  rcases List.mem_map.mp haOO with ⟨oA, hoA, hoAname⟩
  have hoAg : oA ∈ g.ops := by
    rw [hops]
    exact List.mem_append_left _ hoA
  have hfind : findOp g a = some oA := by
    have := findOp_eq_of_mem g inv.ops_nodup oA hoAg
    rw [hoAname] at this
    exact this
  have hpairA : (a, oA.dottedName)
      ∈ ops0.map (fun o => (o.name, o.dottedName)) := by
    have : (oA.name, oA.dottedName) ∈ OO.map (fun o => (o.name, o.dottedName))
      := List.mem_map_of_mem _ hoA
    rw [hpairs] at this
    rw [← hoAname]
    exact this
  have hdclean : ¬ (modelName ++ ".Split_".data) <+: oA.dottedName := by
    rcases List.mem_map.mp hpairA with ⟨o0, ho0, he⟩
    have hd0 : o0.dottedName = oA.dottedName := congrArg Prod.snd he
    rw [← hd0]
    exact hdotted_clean o0 ho0
  have hsplit_prefix : ∀ (k : Nat) (mn : List Char),
      (mn ++ ".Split_".data) <+:
        (mn ++ '.' :: OpName.render (OpName.split k)) := by
    intro k mn
    have he : mn ++ '.' :: OpName.render (OpName.split k)
        = (mn ++ ".Split_".data) ++ (Nat.repr k).data := by
      rw [List.append_assoc]
      rfl
    rw [he]
    exact List.prefix_append _ _
  -- resolving any recorded producer in `g`
  have hresolveOrig : ∀ x ∈ ops0.map (·.name), ∃ ox ∈ OO,
      findOp g x = some ox ∧ ox.name = x ∧
      (x, ox.dottedName) ∈ ops0.map (fun o => (o.name, o.dottedName)) := by
    intro x hx
    have hxOO : x ∈ OO.map (·.name) := by rw [hOOn]; exact hx
    rcases List.mem_map.mp hxOO with ⟨ox, hox, hoxname⟩
    have hoxg : ox ∈ g.ops := by
      rw [hops]
      exact List.mem_append_left _ hox
    have hfx : findOp g x = some ox := by
      have := findOp_eq_of_mem g inv.ops_nodup ox hoxg
      rw [hoxname] at this
      exact this
    refine ⟨ox, hox, hfx, hoxname, ?_⟩
    have : (ox.name, ox.dottedName) ∈ OO.map (fun o => (o.name, o.dottedName))
      := List.mem_map_of_mem _ hox
    rw [hpairs] at this
    rw [← hoxname]
    exact this
  have hresolveSplit : ∀ k, OpName.split k ∈ g.ops.map (·.name) →
      ∃ so, findOp g (OpName.split k) = some so ∧
        so.dottedName = modelName ++ '.' :: OpName.render (OpName.split k) := by
    intro k hk
    rcases findOp_isSome_of_mem g _ hk with ⟨so, hsog, hfs⟩
    obtain ⟨hsoname, _⟩ := findOp_name g _ so hfs
    have hsoSO : so ∈ SO := by
      rw [hops] at hsog
      rcases List.mem_append.mp hsog with hl | hr
      · exfalso
        have : so.name ∈ ops0.map (·.name) := by
          rw [← hOOn]
          exact List.mem_map_of_mem _ hl
        have := hcleanNames so.name this
        rw [hsoname] at this
        simp [cleanOpName] at this
      · exact hr
    rcases hso so hsoSO with ⟨k', _, hk'name, hk'dot, _⟩
    have : OpName.split k' = OpName.split k := by rw [← hk'name, hsoname]
    injection this with hkk
    subst hkk
    exact ⟨so, hfs, hk'dot⟩
  -- the iff needed by the dotted-name query, for `g`
  have hH : ∀ p ∈ g.products, ∀ x, p.producer = some x →
      match findOp g x with
      | some ox => (ox.dottedName = oA.dottedName ↔ x = a)
      | none => x ≠ a := by
    intro p hp x hx
    have hxcases : (x ∈ ops0.map (·.name)) ∨ ∃ k, x = OpName.split k ∧
        x ∈ g.ops.map (·.name) := by
      rcases inv.prod_class p hp with ⟨a', b, hnm, hpr', hmem⟩ |
        ⟨k, hk, hnm, hpr', hmem⟩ | ⟨a', k, hk, hnm, hpr', hmem, hdone'⟩
      · have : a' = x := Option.some.inj (hpr'.symm.trans hx)
        exact Or.inl (this ▸ hmem)
      · have : OpName.split k = x := Option.some.inj (hpr'.symm.trans hx)
        exact Or.inr ⟨k, this.symm, this ▸ hmem⟩
      · have : a' = x := Option.some.inj (hpr'.symm.trans hx)
        exact Or.inl (this ▸ hmem)
    rcases hxcases with hxorig | ⟨k, rfl, hkmem⟩
    · rcases hresolveOrig x hxorig with ⟨ox, _, hfx, _, hpairX⟩
      rw [hfx]
      constructor
      · intro hdx
        exact dotted_unique ops0 hdotted x a oA.dottedName (hdx ▸ hpairX)
          hpairA
      · intro hxa
        subst hxa
        have : ox = oA := Option.some.inj ((hfx.symm).trans hfind)
        rw [this]
    · rcases hresolveSplit k hkmem with ⟨so, hfs, hsod⟩
      rw [hfs]
      constructor
      · intro hdx
        exfalso
        apply hdclean
        rw [← hdx, hsod]
        exact hsplit_prefix k modelName
      · intro hxa
        exfalso
        rw [hps] at hxa
        cases hxa
  have hquery : get_product_names_from_dotted_name g oA.dottedName
      = producedNames g a := query_eq_produced g a oA.dottedName hH
  -- every product of the visited op is one of its `linkP` products
  have hPstruct : ∀ p ∈ g.products, p.producer = some a →
      ∃ b, p.name = ProductName.linkP a b := by
    intro p hp hpr
    rcases inv.prod_class p hp with ⟨a', b, hnm, hpr', hmem⟩ |
      ⟨k, hk, hnm, hpr', hmem⟩ | ⟨a', k, hk, hnm, hpr', hmem, hdone'⟩
    · have : a' = a := Option.some.inj (hpr'.symm.trans hpr)
      exact ⟨b, by rw [hnm, this]⟩
    · exfalso
      have : OpName.split k = a := Option.some.inj (hpr'.symm.trans hpr)
      rw [hps] at this
      cases this
    · exfalso
      have : a' = a := Option.some.inj (hpr'.symm.trans hpr)
      rw [this] at hdone'
      exact hnd hdone'
  have hPname : ∀ pn ∈ producedNames g a, ∃ b,
      pn = ProductName.linkP a b := by
    intro pn hpn
    rcases List.mem_map.mp hpn with ⟨p, hpfil, hpname⟩
    have hpmem := List.mem_of_mem_filter hpfil
    have hppr : p.producer = some a := by
      have := List.of_mem_filter hpfil
      simpa using this
    rcases hPstruct p hpmem hppr with ⟨b, hb⟩
    exact ⟨b, by rw [← hpname, hb]⟩
  rw [determine_eq_of_found g a oA hfind, hquery]
  by_cases hlen : (producedNames g a).length > 1
  · rw [if_pos hlen]
    have hfilter_eq : (((producedNames g a).map
        (fun pn => pySliceTo pn.render (pyFind pn.render "to".data))).filter
        (fun fn => isSub oA.name.render fn))
        = (producedNames g a).map
          (fun pn => pySliceTo pn.render (pyFind pn.render "to".data)) := by
      apply List.filter_eq_self.mpr
      intro fn hfn
      rcases List.mem_map.mp hfn with ⟨pn, hpn, rfl⟩
      rcases hPname pn hpn with ⟨b, rfl⟩
      rw [hoAname, hps]
      exact split_filter_keeps s b hto
    rw [hfilter_eq]
    rw [if_pos (by rw [List.length_map]; exact hlen)]
    -- Split insertion. Abbreviations (spelled inline throughout):
    -- spOp  = the freshly created split op (output not yet bound)
    -- spOp' = the split op with its output product bound
    -- spProd = the split op's output product
    obtain ⟨fC, hfC, hgCeq⟩ := add_consumers_shape
      (⟨g.ops ++ [⟨OpName.split g.splitCount,
          g.modelName ++ '.' :: OpName.render (OpName.split g.splitCount),
          some (ProductName.splitOut (OpName.split g.splitCount))⟩],
        g.products ++ [⟨ProductName.splitOut (OpName.split g.splitCount),
          some (OpName.split g.splitCount), []⟩],
        g.splitCount + 1, g.modelName⟩ : CGraph) oA
      (ProductName.splitOut (OpName.split g.splitCount))
    have hops_ne : ∀ o ∈ g.ops, o.name ≠ OpName.split g.splitCount := by
      intro o ho
      rw [hops] at ho
      rcases List.mem_append.mp ho with hOO' | hSO'
      · have hmem : o.name ∈ ops0.map (·.name) := by
          rw [← hOOn]
          exact List.mem_map_of_mem _ hOO'
        obtain ⟨s', hs', _⟩ := cleanOpName_orig o.name (hcleanNames _ hmem)
        rw [hs']
        simp
      · rcases hso o hSO' with ⟨k, hk, hkname, _, _⟩
        rw [hkname]
        intro hcon
        injection hcon with hkk
        omega
    have hupd1 : updOut (OpName.split g.splitCount)
        (some (ProductName.splitOut (OpName.split g.splitCount)))
        (⟨OpName.split g.splitCount,
          g.modelName ++ '.' :: OpName.render (OpName.split g.splitCount),
          none⟩ : GOp)
        = (⟨OpName.split g.splitCount,
          g.modelName ++ '.' :: OpName.render (OpName.split g.splitCount),
          some (ProductName.splitOut (OpName.split g.splitCount))⟩ : GOp) := by
      rw [updOut, if_pos rfl]
    have hmapB : (g.ops ++ [(⟨OpName.split g.splitCount,
        g.modelName ++ '.' :: OpName.render (OpName.split g.splitCount),
        none⟩ : GOp)]).map (updOut (OpName.split g.splitCount)
          (some (ProductName.splitOut (OpName.split g.splitCount))))
        = g.ops ++ [(⟨OpName.split g.splitCount,
          g.modelName ++ '.' :: OpName.render (OpName.split g.splitCount),
          some (ProductName.splitOut (OpName.split g.splitCount))⟩ : GOp)] := by
      rw [List.map_append, map_updOut_skip g.ops _ _ hops_ne]
      rw [List.map_cons, List.map_nil, hupd1]
    have hstep2 : setOpOutput (create_split_op_output_product
        (⟨g.ops ++ [⟨OpName.split g.splitCount,
            g.modelName ++ '.' :: OpName.render (OpName.split g.splitCount),
            none⟩],
          g.products, g.splitCount + 1, g.modelName⟩ : CGraph)
        (OpName.split g.splitCount)) (OpName.split g.splitCount)
        (some (ProductName.splitOut (OpName.split g.splitCount)))
        = (⟨g.ops ++ [⟨OpName.split g.splitCount,
            g.modelName ++ '.' :: OpName.render (OpName.split g.splitCount),
            some (ProductName.splitOut (OpName.split g.splitCount))⟩],
          g.products ++ [⟨ProductName.splitOut (OpName.split g.splitCount),
            some (OpName.split g.splitCount), []⟩],
          g.splitCount + 1, g.modelName⟩ : CGraph) := by
      apply cgraph_ext
      · exact hmapB
      · rfl
      · rfl
      · rfl
    have hgC : add_consumers_to_split_op_product
        (⟨g.ops ++ [(⟨OpName.split g.splitCount,
            g.modelName ++ '.' :: OpName.render (OpName.split g.splitCount),
            some (ProductName.splitOut (OpName.split g.splitCount))⟩ : GOp)],
          g.products ++ [(⟨ProductName.splitOut (OpName.split g.splitCount),
            some (OpName.split g.splitCount), []⟩ : GProduct)],
          g.splitCount + 1, g.modelName⟩ : CGraph) oA
        (ProductName.splitOut (OpName.split g.splitCount))
        = (⟨g.ops ++ [(⟨OpName.split g.splitCount,
            g.modelName ++ '.' :: OpName.render (OpName.split g.splitCount),
            some (ProductName.splitOut (OpName.split g.splitCount))⟩ : GOp)],
          (g.products ++ [(⟨ProductName.splitOut (OpName.split g.splitCount),
            some (OpName.split g.splitCount), []⟩ : GProduct)]).map fC,
          g.splitCount + 1, g.modelName⟩ : CGraph) := hgCeq
    have hlift : ∀ y oy, findOp g y = some oy →
        findOp (⟨g.ops ++ [(⟨OpName.split g.splitCount,
            g.modelName ++ '.' :: OpName.render (OpName.split g.splitCount),
            some (ProductName.splitOut (OpName.split g.splitCount))⟩ : GOp)],
          (g.products ++ [(⟨ProductName.splitOut (OpName.split g.splitCount),
            some (OpName.split g.splitCount), []⟩ : GProduct)]).map fC,
          g.splitCount + 1, g.modelName⟩ : CGraph) y = some oy := by
      intro y oy h
      show (g.ops ++ _).find? _ = some oy
      exact find?_append_some _ _ _ _ h
    have hfindCsplit : findOp (⟨g.ops ++ [(⟨OpName.split g.splitCount,
          g.modelName ++ '.' :: OpName.render (OpName.split g.splitCount),
          some (ProductName.splitOut (OpName.split g.splitCount))⟩ : GOp)],
        (g.products ++ [(⟨ProductName.splitOut (OpName.split g.splitCount),
          some (OpName.split g.splitCount), []⟩ : GProduct)]).map fC,
        g.splitCount + 1, g.modelName⟩ : CGraph)
        (OpName.split g.splitCount)
        = some (⟨OpName.split g.splitCount,
          g.modelName ++ '.' :: OpName.render (OpName.split g.splitCount),
          some (ProductName.splitOut (OpName.split g.splitCount))⟩ : GOp) := by
      show (g.ops ++ _).find? _ = _
      rw [find?_append_none _ _ _ (List.find?_eq_none.mpr
        (fun o ho => by simp [hops_ne o ho]))]
      rw [List.find?_cons_of_pos _ (by simp)]
    have hH' : ∀ p ∈ (g.products
          ++ [(⟨ProductName.splitOut (OpName.split g.splitCount),
            some (OpName.split g.splitCount), []⟩ : GProduct)]).map fC,
        ∀ x, p.producer = some x →
        match findOp (⟨g.ops ++ [(⟨OpName.split g.splitCount,
            g.modelName ++ '.' :: OpName.render (OpName.split g.splitCount),
            some (ProductName.splitOut (OpName.split g.splitCount))⟩ : GOp)],
          (g.products ++ [(⟨ProductName.splitOut (OpName.split g.splitCount),
            some (OpName.split g.splitCount), []⟩ : GProduct)]).map fC,
          g.splitCount + 1, g.modelName⟩ : CGraph) x with
        | some ox => (ox.dottedName = oA.dottedName ↔ x = a)
        | none => x ≠ a := by
      intro p hp x hx
      rcases List.mem_map.mp hp with ⟨q, hq, rfl⟩
      have hxq : q.producer = some x := by rw [← (hfC q).2]; exact hx
      rcases List.mem_append.mp hq with hqg | hqsp
      · have hxcases : (x ∈ ops0.map (·.name)) ∨ ∃ k, x = OpName.split k ∧
            x ∈ g.ops.map (·.name) := by
          rcases inv.prod_class q hqg with ⟨a', b, hnm, hpr', hmem⟩ |
            ⟨k, hk, hnm, hpr', hmem⟩ | ⟨a', k, hk, hnm, hpr', hmem, hdone'⟩
          · have : a' = x := Option.some.inj (hpr'.symm.trans hxq)
            exact Or.inl (this ▸ hmem)
          · have : OpName.split k = x := Option.some.inj (hpr'.symm.trans hxq)
            exact Or.inr ⟨k, this.symm, this ▸ hmem⟩
          · have : a' = x := Option.some.inj (hpr'.symm.trans hxq)
            exact Or.inl (this ▸ hmem)
        rcases hxcases with hxorig | ⟨k, rfl, hkmem⟩
        · rcases hresolveOrig x hxorig with ⟨ox, _, hfx, _, hpairX⟩
          rw [hlift x ox hfx]
          constructor
          · intro hdx
            exact dotted_unique ops0 hdotted x a oA.dottedName
              (hdx ▸ hpairX) hpairA
          · intro hxa
            subst hxa
            have : ox = oA := Option.some.inj ((hfx.symm).trans hfind)
            rw [this]
        · rcases hresolveSplit k hkmem with ⟨so, hfs, hsod⟩
          rw [hlift _ so hfs]
          constructor
          · intro hdx
            exfalso
            apply hdclean
            rw [← hdx, hsod]
            exact hsplit_prefix k modelName
          · intro hxa
            exfalso
            rw [hps] at hxa
            cases hxa
      · have hq0 : q = (⟨ProductName.splitOut (OpName.split g.splitCount),
            some (OpName.split g.splitCount), []⟩ : GProduct) := by
          simpa using hqsp
        have hxsc : x = OpName.split g.splitCount := by
          rw [hq0] at hxq
          exact (Option.some.inj hxq).symm
        subst hxsc
        rw [hfindCsplit]
        constructor
        · intro hdx
          exfalso
          apply hdclean
          rw [← hdx]
          show modelName ++ _ <+: g.modelName ++ _
          rw [inv.model_eq]
          exact hsplit_prefix g.splitCount modelName
        · intro hxa
          exfalso
          rw [hps] at hxa
          cases hxa
    have hLClist : ∀ m, (((g.products
          ++ [(⟨ProductName.splitOut (OpName.split g.splitCount),
            some (OpName.split g.splitCount), []⟩ : GProduct)]).map fC).filter
          (fun p => decide (p.producer = some m))).map (·.name)
        = producedNames g m
          ++ (if OpName.split g.splitCount = m
              then [ProductName.splitOut (OpName.split g.splitCount)]
              else []) := by
      intro m
      rw [producedNames_map_preserve _ fC (fun p _ => hfC p) m]
      rw [List.filter_append, List.map_append]
      congr 1
      by_cases hsc : OpName.split g.splitCount = m
      · rw [if_pos hsc]
        simp [hsc]
      · rw [if_neg hsc]
        simp [hsc]
    have hsc_ne_a : ¬ OpName.split g.splitCount = a := by
      rw [hps]
      simp
    have hqueryC : get_product_names_from_dotted_name
        (⟨g.ops ++ [(⟨OpName.split g.splitCount,
            g.modelName ++ '.' :: OpName.render (OpName.split g.splitCount),
            some (ProductName.splitOut (OpName.split g.splitCount))⟩ : GOp)],
          (g.products ++ [(⟨ProductName.splitOut (OpName.split g.splitCount),
            some (OpName.split g.splitCount), []⟩ : GProduct)]).map fC,
          g.splitCount + 1, g.modelName⟩ : CGraph) oA.dottedName
        = producedNames g a := by
      rw [query_eq_produced _ a oA.dottedName hH']
      rw [produced_mk, hLClist a, if_neg hsc_ne_a, List.append_nil]
    have hdel : (get_product_names_from_dotted_name
        (⟨g.ops ++ [(⟨OpName.split g.splitCount,
            g.modelName ++ '.' :: OpName.render (OpName.split g.splitCount),
            some (ProductName.splitOut (OpName.split g.splitCount))⟩ : GOp)],
          (g.products ++ [(⟨ProductName.splitOut (OpName.split g.splitCount),
            some (OpName.split g.splitCount), []⟩ : GProduct)]).map fC,
          g.splitCount + 1, g.modelName⟩ : CGraph) oA.dottedName).filter
          (fun pn => isSub oA.name.render pn.render)
        = producedNames g a := by
      rw [hqueryC]
      apply List.filter_eq_self.mpr
      intro pn hpn
      rcases hPname pn hpn with ⟨b, rfl⟩
      rw [hoAname, hps]
      exact isSub_name_linkP s b
    have hfresh : ProductName.splitOut (OpName.split g.splitCount)
        ∉ g.products.map (·.name) := by
      intro hmem
      rcases List.mem_map.mp hmem with ⟨p, hpmem, hpname⟩
      rcases inv.prod_class p hpmem with ⟨a', b, hnm, _, _⟩ |
        ⟨k, hk, hnm, _, _⟩ | ⟨a', k, _, hnm, _, _, _⟩
      · rw [hnm] at hpname
        simp at hpname
      · rw [hnm] at hpname
        injection hpname with h1
        injection h1 with h2
        omega
      · rw [hnm] at hpname
        simp at hpname
    have hLCnames : ((g.products
          ++ [(⟨ProductName.splitOut (OpName.split g.splitCount),
            some (OpName.split g.splitCount), []⟩ : GProduct)]).map fC).map
          (·.name)
        = g.products.map (·.name)
          ++ [ProductName.splitOut (OpName.split g.splitCount)] := by
      rw [names_map_preserve _ fC (fun p _ => (hfC p).1), List.map_append]
      rfl
    have hLCnodup : (((g.products
          ++ [(⟨ProductName.splitOut (OpName.split g.splitCount),
            some (OpName.split g.splitCount), []⟩ : GProduct)]).map fC).map
          (·.name)).Nodup := by
      rw [hLCnames]
      refine List.Nodup.append inv.prods_nodup (by simp) ?_
      intro x hx1 hx2
      simp only [List.mem_singleton] at hx2
      subst hx2
      exact hfresh hx1
    have hbridge : ∀ q ∈ (g.products
          ++ [(⟨ProductName.splitOut (OpName.split g.splitCount),
            some (OpName.split g.splitCount), []⟩ : GProduct)]).map fC,
        (decide (q.name ∉ producedNames g a) : Bool)
          = decide (¬ q.producer = some a) := by
      intro q hq
      have hiff : q.name ∈ producedNames g a ↔ q.producer = some a := by
        constructor
        · intro hmem
          rcases List.mem_map.mp hmem with ⟨p, hpfil, hpname⟩
          have hpg := List.mem_of_mem_filter hpfil
          have hppr : p.producer = some a := by
            simpa using List.of_mem_filter hpfil
          rcases List.mem_map.mp hq with ⟨q0, hq0, rfl⟩
          rcases List.mem_append.mp hq0 with hq0g | hq0sp
          · have heqn : p.name = q0.name := hpname.trans (hfC q0).1
            have : p = q0 :=
              product_name_inj g.products inv.prods_nodup p q0 hpg hq0g heqn
            rw [(hfC q0).2, ← this]
            exact hppr
          · exfalso
            apply hfresh
            have hq0e : q0 = (⟨ProductName.splitOut (OpName.split g.splitCount),
                some (OpName.split g.splitCount), []⟩ : GProduct) := by
              simpa using hq0sp
            have hqn : (fC q0).name
                = ProductName.splitOut (OpName.split g.splitCount) := by
              rw [(hfC q0).1, hq0e]
            have hsub : (fC q0).name ∈ g.products.map (·.name) :=
              List.mem_map.mpr ⟨p, hpg, hpname⟩
            rw [hqn] at hsub
            exact hsub
        · intro hpr
          rcases List.mem_map.mp hq with ⟨q0, hq0, rfl⟩
          have hq0pr : q0.producer = some a := by
            rw [← (hfC q0).2]
            exact hpr
          rcases List.mem_append.mp hq0 with hq0g | hq0sp
          · show (fC q0).name ∈ producedNames g a
            rw [(hfC q0).1]
            exact List.mem_map.mpr
              ⟨q0, List.mem_filter.mpr ⟨hq0g, by simp [hq0pr]⟩, rfl⟩
          · exfalso
            have hq0e : q0 = (⟨ProductName.splitOut (OpName.split g.splitCount),
                some (OpName.split g.splitCount), []⟩ : GProduct) := by
              simpa using hq0sp
            rw [hq0e] at hq0pr
            have := Option.some.inj hq0pr
            rw [hps] at this
            cases this
      by_cases h : q.producer = some a
      · simp [h, hiff.mpr h]
      · have hnm : q.name ∉ producedNames g a := fun hm => h (hiff.mp hm)
        simp [h, hnm]
    have hnoSplitProducer : producedNames g (OpName.split g.splitCount)
        = [] := by
      show (g.products.filter _).map _ = []
      rw [List.filter_eq_nil_iff.mpr]
      · rfl
      intro p hp
      simp only [decide_eq_true_eq]
      intro hpr
      rcases inv.prod_class p hp with ⟨a', b, _, hpr', hmem⟩ |
        ⟨k, hk, _, hpr', _⟩ | ⟨a', k, _, _, hpr', hmem, _⟩
      · have hxe : a' = OpName.split g.splitCount :=
          Option.some.inj (hpr'.symm.trans hpr)
        obtain ⟨s', hs', _⟩ := cleanOpName_orig a' (hcleanNames a' hmem)
        rw [hs'] at hxe
        cases hxe
      · have hxe : OpName.split k = OpName.split g.splitCount :=
          Option.some.inj (hpr'.symm.trans hpr)
        injection hxe with hkk
        omega
      · have hxe : a' = OpName.split g.splitCount :=
          Option.some.inj (hpr'.symm.trans hpr)
        obtain ⟨s', hs', _⟩ := cleanOpName_orig a' (hcleanNames a' hmem)
        rw [hs'] at hxe
        cases hxe
    have hc2 : (create_split_op g).2 = OpName.split g.splitCount := rfl
    have hc1 : (create_split_op g).1
        = (⟨g.ops ++ [(⟨OpName.split g.splitCount,
        g.modelName ++ '.' :: OpName.render (OpName.split g.splitCount),
        none⟩ : GOp)],
          g.products, g.splitCount + 1, g.modelName⟩ : CGraph) := rfl
    rw [hc2, hc1, insert_split_eq, hstep2, hgC]
    have hm1 : (⟨g.ops ++ [(⟨OpName.split g.splitCount,
            g.modelName ++ '.' :: OpName.render (OpName.split g.splitCount),
            some (ProductName.splitOut (OpName.split g.splitCount))⟩ : GOp)],
        ((g.products ++ [(⟨ProductName.splitOut (OpName.split g.splitCount),
              some (OpName.split g.splitCount), []⟩ : GProduct)]).map fC),
        g.splitCount + 1, g.modelName⟩ : CGraph).ops
        = g.ops ++ [(⟨OpName.split g.splitCount,
            g.modelName ++ '.' :: OpName.render (OpName.split g.splitCount),
            some (ProductName.splitOut (OpName.split g.splitCount))⟩ : GOp)] := rfl
    have hm2 : (⟨g.ops ++ [(⟨OpName.split g.splitCount,
            g.modelName ++ '.' :: OpName.render (OpName.split g.splitCount),
            some (ProductName.splitOut (OpName.split g.splitCount))⟩ : GOp)],
        ((g.products ++ [(⟨ProductName.splitOut (OpName.split g.splitCount),
              some (OpName.split g.splitCount), []⟩ : GProduct)]).map fC),
        g.splitCount + 1, g.modelName⟩ : CGraph).products
        = ((g.products ++ [(⟨ProductName.splitOut (OpName.split g.splitCount),
              some (OpName.split g.splitCount), []⟩ : GProduct)]).map fC) := rfl
    have hm3 : (⟨g.ops ++ [(⟨OpName.split g.splitCount,
            g.modelName ++ '.' :: OpName.render (OpName.split g.splitCount),
            some (ProductName.splitOut (OpName.split g.splitCount))⟩ : GOp)],
        ((g.products ++ [(⟨ProductName.splitOut (OpName.split g.splitCount),
              some (OpName.split g.splitCount), []⟩ : GProduct)]).map fC),
        g.splitCount + 1, g.modelName⟩ : CGraph).splitCount
        = g.splitCount + 1 := rfl
    have hm4 : (⟨g.ops ++ [(⟨OpName.split g.splitCount,
            g.modelName ++ '.' :: OpName.render (OpName.split g.splitCount),
            some (ProductName.splitOut (OpName.split g.splitCount))⟩ : GOp)],
        ((g.products ++ [(⟨ProductName.splitOut (OpName.split g.splitCount),
              some (OpName.split g.splitCount), []⟩ : GProduct)]).map fC),
        g.splitCount + 1, g.modelName⟩ : CGraph).modelName
        = g.modelName := rfl
    rw [hm1, hm2, hm3, hm4, hdel, hoAname, List.filter_congr hbridge,
      setOpOutput_eq]
    have hm5 : (⟨g.ops ++ [(⟨OpName.split g.splitCount,
            g.modelName ++ '.' :: OpName.render (OpName.split g.splitCount),
            some (ProductName.splitOut (OpName.split g.splitCount))⟩ : GOp)],
        (((g.products ++ [(⟨ProductName.splitOut (OpName.split g.splitCount),
                some (OpName.split g.splitCount), []⟩ : GProduct)]).map fC).filter
          (fun p => decide (¬ p.producer = some a)))
          ++ [(⟨ProductName.toSplit a (OpName.split g.splitCount), some a,
            [OpName.split g.splitCount]⟩ : GProduct)],
        g.splitCount + 1, g.modelName⟩ : CGraph).ops
        = g.ops ++ [(⟨OpName.split g.splitCount,
            g.modelName ++ '.' :: OpName.render (OpName.split g.splitCount),
            some (ProductName.splitOut (OpName.split g.splitCount))⟩ : GOp)] := rfl
    have hm6 : (⟨g.ops ++ [(⟨OpName.split g.splitCount,
            g.modelName ++ '.' :: OpName.render (OpName.split g.splitCount),
            some (ProductName.splitOut (OpName.split g.splitCount))⟩ : GOp)],
        (((g.products ++ [(⟨ProductName.splitOut (OpName.split g.splitCount),
                some (OpName.split g.splitCount), []⟩ : GProduct)]).map fC).filter
          (fun p => decide (¬ p.producer = some a)))
          ++ [(⟨ProductName.toSplit a (OpName.split g.splitCount), some a,
            [OpName.split g.splitCount]⟩ : GProduct)],
        g.splitCount + 1, g.modelName⟩ : CGraph).products
        = (((g.products ++ [(⟨ProductName.splitOut (OpName.split g.splitCount),
                some (OpName.split g.splitCount), []⟩ : GProduct)]).map fC).filter
          (fun p => decide (¬ p.producer = some a)))
          ++ [(⟨ProductName.toSplit a (OpName.split g.splitCount), some a,
            [OpName.split g.splitCount]⟩ : GProduct)] := rfl
    have hm7 : (⟨g.ops ++ [(⟨OpName.split g.splitCount,
            g.modelName ++ '.' :: OpName.render (OpName.split g.splitCount),
            some (ProductName.splitOut (OpName.split g.splitCount))⟩ : GOp)],
        (((g.products ++ [(⟨ProductName.splitOut (OpName.split g.splitCount),
                some (OpName.split g.splitCount), []⟩ : GProduct)]).map fC).filter
          (fun p => decide (¬ p.producer = some a)))
          ++ [(⟨ProductName.toSplit a (OpName.split g.splitCount), some a,
            [OpName.split g.splitCount]⟩ : GProduct)],
        g.splitCount + 1, g.modelName⟩ : CGraph).splitCount
        = g.splitCount + 1 := rfl
    have hm8 : (⟨g.ops ++ [(⟨OpName.split g.splitCount,
            g.modelName ++ '.' :: OpName.render (OpName.split g.splitCount),
            some (ProductName.splitOut (OpName.split g.splitCount))⟩ : GOp)],
        (((g.products ++ [(⟨ProductName.splitOut (OpName.split g.splitCount),
                some (OpName.split g.splitCount), []⟩ : GProduct)]).map fC).filter
          (fun p => decide (¬ p.producer = some a)))
          ++ [(⟨ProductName.toSplit a (OpName.split g.splitCount), some a,
            [OpName.split g.splitCount]⟩ : GProduct)],
        g.splitCount + 1, g.modelName⟩ : CGraph).modelName
        = g.modelName := rfl
    rw [hm5, hm6, hm7, hm8]
    have hmapF : (g.ops ++ [(⟨OpName.split g.splitCount,
            g.modelName ++ '.' :: OpName.render (OpName.split g.splitCount),
            some (ProductName.splitOut (OpName.split g.splitCount))⟩ : GOp)]).map (updOut a (some (ProductName.toSplit a (OpName.split g.splitCount))))
        = g.ops.map (updOut a (some (ProductName.toSplit a (OpName.split g.splitCount))))
          ++ [(⟨OpName.split g.splitCount,
              g.modelName ++ '.' :: OpName.render (OpName.split g.splitCount),
              some (ProductName.splitOut (OpName.split g.splitCount))⟩ : GOp)] := by
      rw [List.map_append, List.map_cons, List.map_nil]
      have hskip : updOut a (some (ProductName.toSplit a (OpName.split g.splitCount)))
          (⟨OpName.split g.splitCount,
              g.modelName ++ '.' :: OpName.render (OpName.split g.splitCount),
              some (ProductName.splitOut (OpName.split g.splitCount))⟩ : GOp)
          = (⟨OpName.split g.splitCount,
              g.modelName ++ '.' :: OpName.render (OpName.split g.splitCount),
              some (ProductName.splitOut (OpName.split g.splitCount))⟩ : GOp) := by
        rw [updOut, if_neg]
        intro hh
        exact hsc_ne_a hh
      rw [hskip]
    rw [hmapF]
    have hFa : producedNames
        (⟨(g.ops.map (updOut a (some (ProductName.toSplit a (OpName.split g.splitCount))))
            ++ [(⟨OpName.split g.splitCount,
                g.modelName ++ '.' :: OpName.render (OpName.split g.splitCount),
                some (ProductName.splitOut (OpName.split g.splitCount))⟩ : GOp)]),
          (((g.products ++ [(⟨ProductName.splitOut (OpName.split g.splitCount),
                  some (OpName.split g.splitCount), []⟩ : GProduct)]).map fC).filter
            (fun p => decide (¬ p.producer = some a)))
            ++ [(⟨ProductName.toSplit a (OpName.split g.splitCount), some a,
              [OpName.split g.splitCount]⟩ : GProduct)],
          g.splitCount + 1, g.modelName⟩ : CGraph) a
        = [ProductName.toSplit a (OpName.split g.splitCount)] := by
      rw [produced_mk, List.filter_append, List.map_append,
        filter_producer_filter_self]
      simp
    have hFne : ∀ m, ¬ m = a →
        producedNames
          (⟨(g.ops.map (updOut a (some (ProductName.toSplit a (OpName.split g.splitCount))))
              ++ [(⟨OpName.split g.splitCount,
                  g.modelName ++ '.' :: OpName.render (OpName.split g.splitCount),
                  some (ProductName.splitOut (OpName.split g.splitCount))⟩ : GOp)]),
            (((g.products ++ [(⟨ProductName.splitOut (OpName.split g.splitCount),
                    some (OpName.split g.splitCount), []⟩ : GProduct)]).map fC).filter
              (fun p => decide (¬ p.producer = some a)))
              ++ [(⟨ProductName.toSplit a (OpName.split g.splitCount), some a,
                [OpName.split g.splitCount]⟩ : GProduct)],
            g.splitCount + 1, g.modelName⟩ : CGraph) m
          = producedNames g m
            ++ (if OpName.split g.splitCount = m
                then [ProductName.splitOut (OpName.split g.splitCount)] else []) := by
      intro m hm
      have hnts : ¬ ((some a : Option OpName) = some m) := by
        intro hh
        exact hm (Option.some.inj hh).symm
      rw [produced_mk, List.filter_append, List.map_append,
        filter_producer_filter_ne _ _ _ hm, hLClist m]
      simp [hnts]
    refine ⟨inv.model_eq, ?_, ?_, ?_, ?_, ?_, ?_, ?_⟩
    · refine ⟨OO.map (updOut a (some (ProductName.toSplit a (OpName.split g.splitCount)))), SO ++ [(⟨OpName.split g.splitCount,
            g.modelName ++ '.' :: OpName.render (OpName.split g.splitCount),
            some (ProductName.splitOut (OpName.split g.splitCount))⟩ : GOp)], ?_, ?_, ?_⟩
      · show g.ops.map (updOut a (some (ProductName.toSplit a (OpName.split g.splitCount))))
          ++ [(⟨OpName.split g.splitCount,
              g.modelName ++ '.' :: OpName.render (OpName.split g.splitCount),
              some (ProductName.splitOut (OpName.split g.splitCount))⟩ : GOp)] = _
        have hSOskip : SO.map (updOut a (some (ProductName.toSplit a (OpName.split g.splitCount)))) = SO := by
          rw [hps]
          exact map_skip_splits SO s _ g.splitCount
            (fun so h => (hso so h).elim
              (fun k hk => ⟨k, hk.1, hk.2.1⟩))
        rw [hops, List.map_append, hSOskip, List.append_assoc]
      · rw [ops_pairs_map OO _ (fun o _ => updOut_preserve _ _ o)]
        exact hpairs
      · intro so hso'
        rcases List.mem_append.mp hso' with hSO | hsp
        · rcases hso so hSO with ⟨k, hk, h1, h2, h3⟩
          exact ⟨k, by show k < g.splitCount + 1; omega, h1, h2, h3⟩
        · have hsoe : so = (⟨OpName.split g.splitCount,
              g.modelName ++ '.' :: OpName.render (OpName.split g.splitCount),
              some (ProductName.splitOut (OpName.split g.splitCount))⟩ : GOp) := by
            simpa using hsp
          subst hsoe
          refine ⟨g.splitCount,
            by show g.splitCount < g.splitCount + 1; omega, rfl, ?_, rfl⟩
          show g.modelName ++ _ = modelName ++ _
          rw [inv.model_eq]
    · show ((g.ops.map (updOut a (some (ProductName.toSplit a (OpName.split g.splitCount))))
          ++ [(⟨OpName.split g.splitCount,
              g.modelName ++ '.' :: OpName.render (OpName.split g.splitCount),
              some (ProductName.splitOut (OpName.split g.splitCount))⟩ : GOp)]).map (·.name)).Nodup
      rw [List.map_append,
        ops_names_map g.ops _ (fun o _ => (updOut_preserve _ _ o).1)]
      refine List.Nodup.append inv.ops_nodup (by simp) ?_
      intro x hx1 hx2
      simp only [List.map_cons, List.map_nil, List.mem_singleton] at hx2
      subst hx2
      rcases List.mem_map.mp hx1 with ⟨o2, ho2, hn2⟩
      exact hops_ne o2 ho2 hn2
    · show (((((g.products ++ [(⟨ProductName.splitOut (OpName.split g.splitCount),
                some (OpName.split g.splitCount), []⟩ : GProduct)]).map fC).filter
          (fun p => decide (¬ p.producer = some a)))
          ++ [(⟨ProductName.toSplit a (OpName.split g.splitCount), some a,
            [OpName.split g.splitCount]⟩ : GProduct)]).map (·.name)).Nodup
      rw [List.map_append]
      refine List.Nodup.append ?_ (by simp) ?_
      · exact List.Nodup.sublist
          (List.Sublist.map _ (List.filter_sublist _)) hLCnodup
      · intro x hx1 hx2
        simp only [List.map_cons, List.map_nil, List.mem_singleton] at hx2
        subst hx2
        have hx1' : ProductName.toSplit a (OpName.split g.splitCount)
            ∈ ((g.products ++ [(⟨ProductName.splitOut (OpName.split g.splitCount),
                some (OpName.split g.splitCount), []⟩ : GProduct)]).map fC).map (·.name) :=
          (List.Sublist.map (fun p : GProduct => p.name)
            (List.filter_sublist _)).subset hx1
        rw [hLCnames] at hx1'
        rcases List.mem_append.mp hx1' with hg' | hsp'
        · rcases List.mem_map.mp hg' with ⟨p, hpmem, hpname⟩
          rcases inv.prod_class p hpmem with ⟨a', b, hnm, _, _⟩ |
            ⟨k, hk, hnm, _, _⟩ | ⟨a', k, hk, hnm, _, _, _⟩
          · rw [hnm] at hpname
            simp at hpname
          · rw [hnm] at hpname
            simp at hpname
          · rw [hnm] at hpname
            injection hpname with h1 h2
            injection h2 with h3
            omega
        · simp at hsp'
    · intro p' hp'
      rcases List.mem_append.mp hp' with hpf | hpn
      · have hpLC : p' ∈ ((g.products ++ [(⟨ProductName.splitOut (OpName.split g.splitCount),
              some (OpName.split g.splitCount), []⟩ : GProduct)]).map fC) :=
          List.mem_of_mem_filter hpf
        rcases List.mem_map.mp hpLC with ⟨q, hq, rfl⟩
        rcases List.mem_append.mp hq with hqg | hqsp
        · rcases inv.prod_class q hqg with ⟨a', b, hnm, hpr', hmem⟩ |
            ⟨k, hk, hnm, hpr', hmem⟩ | ⟨a', k, hk, hnm, hpr', hmem, hdone'⟩
          · exact Or.inl ⟨a', b, (hfC q).1.trans hnm,
              (hfC q).2.trans hpr', hmem⟩
          · refine Or.inr (Or.inl ⟨k, by show k < g.splitCount + 1; omega,
              (hfC q).1.trans hnm, (hfC q).2.trans hpr', ?_⟩)
            show OpName.split k
              ∈ (g.ops.map (updOut a (some (ProductName.toSplit a (OpName.split g.splitCount))))
                ++ [(⟨OpName.split g.splitCount,
                g.modelName ++ '.' :: OpName.render (OpName.split g.splitCount),
                some (ProductName.splitOut (OpName.split g.splitCount))⟩ : GOp)]).map (·.name)
            rw [List.map_append,
              ops_names_map g.ops _ (fun o _ => (updOut_preserve _ _ o).1)]
            exact List.mem_append_left _ hmem
          · exact Or.inr (Or.inr ⟨a', k,
              by show k < g.splitCount + 1; omega,
              (hfC q).1.trans hnm, (hfC q).2.trans hpr', hmem,
              List.mem_cons_of_mem a hdone'⟩)
        · have hq0e : q = (⟨ProductName.splitOut (OpName.split g.splitCount),
              some (OpName.split g.splitCount), []⟩ : GProduct) := by
            simpa using hqsp
          refine Or.inr (Or.inl ⟨g.splitCount,
            by show g.splitCount < g.splitCount + 1; omega, ?_, ?_, ?_⟩)
          · rw [(hfC q).1, hq0e]
          · rw [(hfC q).2, hq0e]
          · show (OpName.split g.splitCount)
              ∈ (g.ops.map (updOut a (some (ProductName.toSplit a (OpName.split g.splitCount))))
                ++ [(⟨OpName.split g.splitCount,
                g.modelName ++ '.' :: OpName.render (OpName.split g.splitCount),
                some (ProductName.splitOut (OpName.split g.splitCount))⟩ : GOp)]).map (·.name)
            rw [List.map_append]
            refine List.mem_append_right _ ?_
            simp
      · have hpe : p' = (⟨ProductName.toSplit a (OpName.split g.splitCount), some a,
          [OpName.split g.splitCount]⟩ : GProduct) := by
          simpa using hpn
        subst hpe
        exact Or.inr (Or.inr ⟨a, g.splitCount,
          by show g.splitCount < g.splitCount + 1; omega, rfl, rfl, ha,
          List.mem_cons_self a done⟩)
    · intro o' ho'
      rcases List.mem_append.mp ho' with hom | hosp
      · rcases List.mem_map.mp hom with ⟨o2, ho2, rfl⟩
        by_cases hop : o2.name = a
        · right
          refine ⟨ProductName.toSplit a (OpName.split g.splitCount), ?_, ?_⟩
          · rw [(updOut_preserve _ _ o2).1, hop, hFa]
            simp
          · show (updOut a _ o2).output = _
            rw [updOut, if_pos hop]
        · have hne2 : ¬ OpName.split g.splitCount = o2.name :=
            fun hh => hops_ne o2 ho2 hh.symm
          have ho2eq : updOut a (some (ProductName.toSplit a (OpName.split g.splitCount))) o2
              = o2 := by
            rw [updOut, if_neg hop]
          rw [ho2eq]
          have hprodF : producedNames
              (⟨(g.ops.map (updOut a (some (ProductName.toSplit a (OpName.split g.splitCount))))
                  ++ [(⟨OpName.split g.splitCount,
                      g.modelName ++ '.' :: OpName.render (OpName.split g.splitCount),
                      some (ProductName.splitOut (OpName.split g.splitCount))⟩ : GOp)]),
                (((g.products ++ [(⟨ProductName.splitOut (OpName.split g.splitCount),
                        some (OpName.split g.splitCount), []⟩ : GProduct)]).map fC).filter
                  (fun p => decide (¬ p.producer = some a)))
                  ++ [(⟨ProductName.toSplit a (OpName.split g.splitCount), some a,
                    [OpName.split g.splitCount]⟩ : GProduct)],
                g.splitCount + 1, g.modelName⟩ : CGraph) o2.name
              = producedNames g o2.name := by
            rw [hFne o2.name hop, if_neg hne2, List.append_nil]
          rw [hprodF]
          exact inv.outputs_good o2 ho2
      · have hoe : o' = (⟨OpName.split g.splitCount,
            g.modelName ++ '.' :: OpName.render (OpName.split g.splitCount),
            some (ProductName.splitOut (OpName.split g.splitCount))⟩ : GOp) := by
          simpa using hosp
        subst hoe
        right
        refine ⟨ProductName.splitOut (OpName.split g.splitCount), ?_, rfl⟩
        show ProductName.splitOut (OpName.split g.splitCount)
          ∈ producedNames
            (⟨(g.ops.map (updOut a (some (ProductName.toSplit a (OpName.split g.splitCount))))
                ++ [(⟨OpName.split g.splitCount,
                    g.modelName ++ '.' :: OpName.render (OpName.split g.splitCount),
                    some (ProductName.splitOut (OpName.split g.splitCount))⟩ : GOp)]),
              (((g.products ++ [(⟨ProductName.splitOut (OpName.split g.splitCount),
                      some (OpName.split g.splitCount), []⟩ : GProduct)]).map fC).filter
                (fun p => decide (¬ p.producer = some a)))
                ++ [(⟨ProductName.toSplit a (OpName.split g.splitCount), some a,
                  [OpName.split g.splitCount]⟩ : GProduct)],
              g.splitCount + 1, g.modelName⟩ : CGraph) (OpName.split g.splitCount)
        rw [hFne _ hsc_ne_a, hnoSplitProducer, if_pos rfl]
        simp
    · intro b hb
      rcases List.mem_cons.mp hb with rfl | hb'
      · rw [hFa]
        simp
      · have hba : ¬ b = a := fun hh => hnd (hh ▸ hb')
        have hbsc : ¬ (OpName.split g.splitCount) = b := by
          obtain ⟨s', hs', _⟩ :=
            cleanOpName_orig b (hcleanNames b (inv.done_sub b hb'))
          rw [hs']
          simp
        rw [hFne b hba, if_neg hbsc, List.append_nil]
        exact inv.done_proc b hb'
    · intro b hb
      rcases List.mem_cons.mp hb with rfl | hb'
      · exact ha
      · exact inv.done_sub b hb'
  · rw [if_neg hlen]
    refine ⟨inv.model_eq, inv.ops_decomp, inv.ops_nodup, inv.prods_nodup,
      ?_, inv.outputs_good, ?_, ?_⟩
    · intro p hp
      rcases inv.prod_class p hp with h1 | h2 | h3
      · exact Or.inl h1
      · exact Or.inr (Or.inl h2)
      · rcases h3 with ⟨a', k, hk, hnm, hpr', hmem, hdone'⟩
        exact Or.inr (Or.inr ⟨a', k, hk, hnm, hpr', hmem,
          List.mem_cons_of_mem a hdone'⟩)
    · intro b hb
      rcases List.mem_cons.mp hb with rfl | hb'
      · omega
      · exact inv.done_proc b hb'
    · intro b hb
      rcases List.mem_cons.mp hb with rfl | hb'
      · exact ha
      · exact inv.done_sub b hb'

/-- A list with at most one element that contains `x` is `[x]`. -/
theorem mem_length_le_one_eq {α : Type} (l : List α) (x : α)
    (hx : x ∈ l) (hlen : l.length ≤ 1) : l = [x] := by
  cases l with
  | nil => cases hx
  | cons a t =>
      cases t with
      | nil =>
          rcases List.mem_singleton.mp hx with rfl
          rfl
      | cons b u =>
          exfalso
          rw [List.length_cons, List.length_cons] at hlen
          omega

/-- `_create_and_link_inter_op_product` never touches the split counter. -/
theorem create_and_link_splitCount (g : CGraph) (parent current : OpName) :
    (create_and_link_inter_op_product g parent current).splitCount
      = g.splitCount := by
  rw [create_and_link_eq]
  by_cases h : (findProduct g (ProductName.linkP parent current)).isSome
  · rw [if_pos h]
    rfl
  · rw [if_neg h]
    rfl

/-- The linking stage never touches the split counter. -/
theorem buildLinks_splitCount :
    ∀ (edges : List (OpName × OpName)) (g : CGraph),
      (buildLinks g edges).splitCount = g.splitCount := by
  intro edges
  induction edges with
  | nil => exact fun g => rfl
  | cons e t ih =>
      intro g
      show (buildLinks
        (create_and_link_inter_op_product g e.1 e.2) t).splitCount = _
      rw [ih (create_and_link_inter_op_product g e.1 e.2),
        create_and_link_splitCount]

/-- Before any split op exists, the op names are still the trace-parse op
names. -/
theorem cinv_ops_names (ops0 : List GOp) (modelName : List Char)
    (done : List OpName) (g : CGraph) (inv : CInv ops0 modelName done g)
    (hsc : g.splitCount = 0) :
    g.ops.map (·.name) = ops0.map (·.name) := by
  rcases inv.ops_decomp with ⟨OO, SO, hops, hpairs, hso⟩
  have hSO : SO = [] := by
    cases SO with
    | nil => rfl
    | cons so t =>
        exfalso
        rcases hso so (List.mem_cons_self so t) with ⟨k, hk, _⟩
        rw [hsc] at hk
        omega
  obtain ⟨hOOn, _⟩ := pairs_to_names OO ops0 hpairs
  rw [hops, hSO, List.append_nil, hOOn]

/-- Folding the split pass over a duplicate-free list of unvisited
trace-parse op names preserves the invariant and marks them all done. -/
theorem cinv_fold (ops0 : List GOp) (modelName : List Char)
    (hdotted : (ops0.map (·.dottedName)).Nodup)
    (hcleanNames : ∀ n ∈ ops0.map (·.name), cleanOpName n = true)
    (hdotted_clean : ∀ o ∈ ops0,
      ¬ (modelName ++ ".Split_".data) <+: o.dottedName) :
    ∀ (S : List OpName) (done : List OpName) (g : CGraph),
      CInv ops0 modelName done g →
      (∀ x ∈ S, x ∈ ops0.map (·.name)) →
      (∀ x ∈ S, x ∉ done) →
      S.Nodup →
      ∃ done2, CInv ops0 modelName done2
          (S.foldl determine_split_behavior g)
        ∧ ∀ x, x ∈ S ∨ x ∈ done → x ∈ done2 := by
  intro S
  induction S with
  | nil =>
      intro done g inv _ _ _
      exact ⟨done, inv,
        fun x hx => hx.elim (fun h => absurd h (List.not_mem_nil x)) id⟩
  | cons a t ih =>
      intro done g inv hmem hnd hnodup
      have inv' := cinv_determine ops0 modelName hdotted hcleanNames
        hdotted_clean g done a inv (hmem a (List.mem_cons_self a t))
        (hnd a (List.mem_cons_self a t))
      obtain ⟨done2, invF, hdone2⟩ := ih (a :: done)
        (determine_split_behavior g a) inv'
        (fun x hx => hmem x (List.mem_cons_of_mem a hx))
        (fun x hx hxd => by
          rcases List.mem_cons.mp hxd with h1 | h2
          · exact (List.nodup_cons.mp hnodup).1 (h1 ▸ hx)
          · exact hnd x (List.mem_cons_of_mem a hx) h2)
        (List.nodup_cons.mp hnodup).2
      refine ⟨done2, ?_, ?_⟩
      · show CInv _ _ _ (t.foldl determine_split_behavior
          (determine_split_behavior g a))
        exact invF
      · intro x hx
        rcases hx with hxS | hxd
        · rcases List.mem_cons.mp hxS with rfl | hx'
          · exact hdone2 x (Or.inr (List.mem_cons_self x done))
          · exact hdone2 x (Or.inl hx')
        · exact hdone2 x (Or.inr (List.mem_cons_of_mem a hxd))

/-- Once every trace-parse op has been visited by the split pass, the
invariant forces producer/output consistency. -/
theorem consistent_of_inv (ops0 : List GOp) (modelName : List Char)
    (done : List OpName) (g : CGraph)
    (hcleanNames : ∀ n ∈ ops0.map (·.name), cleanOpName n = true)
    (inv : CInv ops0 modelName done g)
    (hall : ∀ x ∈ ops0.map (·.name), x ∈ done) :
    producerConsistentB g = true := by
  rcases inv.ops_decomp with ⟨OO, SO, hops, hpairs, hso⟩
  obtain ⟨hOOn, _⟩ := pairs_to_names OO ops0 hpairs
  have hmain : ∀ (p : GProduct), p ∈ g.products → ∀ a, p.producer = some a →
      a ∈ ops0.map (·.name) → a ∈ done →
      ∃ o, findOp g a = some o ∧ o.output = some p.name := by
    intro p hp a hpr hmem hdone
    have haOps : a ∈ g.ops.map (·.name) := by
      rw [hops, List.map_append]
      refine List.mem_append_left _ ?_
      rw [hOOn]
      exact hmem
    rcases findOp_isSome_of_mem g a haOps with ⟨o, hog, hfo⟩
    obtain ⟨honame, _⟩ := findOp_name g a o hfo
    have hpn : p.name ∈ producedNames g a :=
      List.mem_map.mpr ⟨p, List.mem_filter.mpr ⟨hp, by simp [hpr]⟩, rfl⟩
    have hone : producedNames g a = [p.name] :=
      mem_length_le_one_eq _ _ hpn (inv.done_proc a hdone)
    rcases inv.outputs_good o hog with ⟨_, hemp⟩ | ⟨pn, hpnmem, hout⟩
    · rw [honame, hone] at hemp
      cases hemp
    · rw [honame, hone] at hpnmem
      rcases List.mem_singleton.mp hpnmem with rfl
      exact ⟨o, hfo, hout⟩
  rw [producerConsistentB, List.all_eq_true]
  intro p hp
  rcases hppr : p.producer with _ | aName
  · rfl
  · show (match findOp g aName with
      | none => false
      | some o => decide (o.output = some p.name)) = true
    rcases inv.prod_class p hp with ⟨a', b, hnm, hpr', hmem⟩ |
      ⟨k, hk, hnm, hpr', hmemk⟩ | ⟨a', k, hk, hnm, hpr', hmem, hdone'⟩
    · have hae : a' = aName := Option.some.inj (hpr'.symm.trans hppr)
      subst hae
      obtain ⟨o, hfo, hout⟩ := hmain p hp a' hpr' hmem (hall a' hmem)
      rw [hfo]
      simp [hout]
    · have hae : OpName.split k = aName :=
        Option.some.inj (hpr'.symm.trans hppr)
      subst hae
      rcases findOp_isSome_of_mem g _ hmemk with ⟨so, hsog, hfs⟩
      obtain ⟨hsoname, _⟩ := findOp_name g _ so hfs
      rw [hfs]
      have hsoSO : so ∈ SO := by
        rw [hops] at hsog
        rcases List.mem_append.mp hsog with hl | hr
        · exfalso
          have hm2 : so.name ∈ ops0.map (·.name) := by
            rw [← hOOn]
            exact List.mem_map_of_mem _ hl
          have hcl := hcleanNames so.name hm2
          rw [hsoname] at hcl
          simp [cleanOpName] at hcl
        · exact hr
      rcases hso so hsoSO with ⟨k', _, hname', _, hout'⟩
      have hkk : OpName.split k' = OpName.split k := by
        rw [← hname', hsoname]
      injection hkk with hkk2
      subst hkk2
      simp [hout', hnm]
    · have hae : a' = aName := Option.some.inj (hpr'.symm.trans hppr)
      subst hae
      obtain ⟨o, hfo, hout⟩ := hmain p hp a' hpr' hmem hdone'
      rw [hfo]
      simp [hout]

/-- **C8 (amended).** After the inter-op linking and the split-insertion
pass of `_construct_graph`, every Product with a recorded producer Op is
exactly that producer's recorded output Product — provided the trace-parse
stage is well-formed (distinct op names, distinct dotted names, outputs
still unbound, no dotted name of the reserved `<model>.Split_<k>` shape,
every edge leaving an existing op) and no op name contains the substring
`'to'`.  Without the `'to'` restriction the claim is false
(`connectedgraph_producer_output_counterexample`): `prod_name.find('to')`
then truncates the product names before the `'_to_'` separator and the
split op is silently skipped. -/
theorem producer_output_invariant_after_split_phase
    (ops0 : List GOp) (edges : List (OpName × OpName)) (modelName : List Char)
    (hnames : (ops0.map (·.name)).Nodup)
    (hdotted : (ops0.map (·.dottedName)).Nodup)
    (hclean : ∀ o ∈ ops0, cleanOpName o.name = true ∧ o.output = none ∧
      ¬ (modelName ++ ".Split_".data) <+: o.dottedName)
    (hedges : ∀ e ∈ edges, e.1 ∈ ops0.map (·.name)) :
    producerConsistentB
      (construct_graph_split_stage ops0 edges modelName) = true := by
  have hcleanNames : ∀ n ∈ ops0.map (·.name), cleanOpName n = true := by
    intro n hn
    rcases List.mem_map.mp hn with ⟨o, ho, rfl⟩
    exact (hclean o ho).1
  have hout : ∀ o ∈ ops0, o.output = none := fun o ho => (hclean o ho).2.1
  have hdc : ∀ o ∈ ops0, ¬ (modelName ++ ".Split_".data) <+: o.dottedName :=
    fun o ho => (hclean o ho).2.2
  have invB : CInv ops0 modelName []
      (buildLinks ⟨ops0, [], 0, modelName⟩ edges) :=
    cinv_buildLinks ops0 modelName hcleanNames edges _
      (cinv_init ops0 modelName hnames hout) hedges
  have hsc0 : (buildLinks ⟨ops0, [], 0, modelName⟩ edges).splitCount = 0 :=
    buildLinks_splitCount edges _
  have hnames_eq :
      (buildLinks ⟨ops0, [], 0, modelName⟩ edges).ops.map (·.name)
        = ops0.map (·.name) :=
    cinv_ops_names ops0 modelName [] _ invB hsc0
  obtain ⟨done2, invF, hdone2⟩ := cinv_fold ops0 modelName hdotted
    hcleanNames hdc
    ((buildLinks ⟨ops0, [], 0, modelName⟩ edges).ops.map (·.name)) []
    (buildLinks ⟨ops0, [], 0, modelName⟩ edges) invB
    (fun x hx => by rw [hnames_eq] at hx; exact hx)
    (fun x _ hx => List.not_mem_nil x hx)
    invB.ops_nodup
  show producerConsistentB
    (((buildLinks ⟨ops0, [], 0, modelName⟩ edges).ops.map (·.name)).foldl
      determine_split_behavior
      (buildLinks ⟨ops0, [], 0, modelName⟩ edges)) = true
  exact consistent_of_inv ops0 modelName done2 _ hcleanNames invF
    (fun x hx => hdone2 x (Or.inl (by rw [hnames_eq]; exact hx)))

/-- Closed witness for the amended C8 theorem: a two-consumer fan-out
`conv_0 → relu_1, relu_2` — no op name contains `'to'`, a split op is
inserted, and the producer/output invariant holds afterwards. -/
theorem producer_output_invariant_after_split_phase_witness :
    producerConsistentB (construct_graph_split_stage
      [⟨OpName.orig "conv_0".data, "conv_0".data, none⟩,
       ⟨OpName.orig "relu_1".data, "relu_1".data, none⟩,
       ⟨OpName.orig "relu_2".data, "relu_2".data, none⟩]
      [(OpName.orig "conv_0".data, OpName.orig "relu_1".data),
       (OpName.orig "conv_0".data, OpName.orig "relu_2".data)]
      "model".data) = true :=
  producer_output_invariant_after_split_phase _ _ _ (by decide) (by decide)
    (by decide) (by decide)

end Aimet
